import Mathlib

/-!
Verification of the CoreRank keyword-extraction program (corerank.py).

The development shallowly embeds the program's components:
* an indexed min-heap (`min_heapify`, `build_min_heap`, `heap_extract_min`,
  `heap_decrease_key`) over (key, identity) pairs with an identity→position
  index (`vindex` in the source, modelled as an association list);
* the sliding-window co-occurrence graph builder (`build_graph_of_words`);
* the weighted k-core decomposition (`k_core_decomposition`);
* the keyword scorer (`core_rank`, `keyword_quality`, `comb`) and the greedy
  selector (`optimize`).

Numbers that Python treats as ints/floats are modelled as `ℚ`; identities are
`String`s.  Fallible operations (Python exceptions) return `Except`.
-/

namespace CoKE

/-! ### A computable lexicographic order on strings

Python compares strings lexicographically by code point.  Lean's builtin
`String.lt` is semantically the same but is not kernel-reducible, so we use an
explicit recursion over the character lists. -/

def charListLt : List Char → List Char → Bool
  | [], [] => false
  | [], _ :: _ => true
  | _ :: _, [] => false
  | c :: cs, d :: ds => decide (c < d) || (decide (c = d) && charListLt cs ds)

def strLt (a b : String) : Bool := charListLt a.data b.data

def strLe (a b : String) : Bool := !strLt b a

/-- Insertion of a string into a sorted list, ascending under `strLe`. -/
def insS (a : String) : List String → List String
  | [] => [a]
  | b :: l => if strLe a b then a :: b :: l else b :: insS a l

/-- Insertion sort, modelling Python's `sorted` on strings. -/
def sortS : List String → List String
  | [] => []
  | a :: l => insS a (sortS l)

/-- Model of Python's `sorted(set(ws))`. -/
def sortedSet (ws : List String) : List String := sortS ws.dedup

/-! ### Heap elements and a small list API

A heap element is a Python list `[key, identity]`; the heap is a Python list of
those.  `getE`/`setE` model indexing `h[i]` and assignment `h[i] = x` (all uses
in the source are in bounds; `getE` returns a junk element out of bounds). -/

abbrev Elem := ℚ × String

def getE : List Elem → ℕ → Elem
  | [], _ => (0, "")
  | a :: _, 0 => a
  | _ :: t, n + 1 => getE t n

def setE : List Elem → ℕ → Elem → List Elem
  | [], _, _ => []
  | _ :: t, 0, x => x :: t
  | a :: t, n + 1, x => a :: setE t n x

/-- Model of Python's `h.pop()` (dropping the last element). -/
def dropLastE : List Elem → List Elem
  | [] => []
  | [_] => []
  | a :: b :: t => a :: dropLastE (b :: t)

/-! ### The identity→position dictionary (`vindex`)

Python dictionaries are modelled as association lists: lookup returns the
value at the first matching key, assignment updates in place or appends, and
`pop` deletes the key. -/

abbrev VIndex := List (String × ℕ)

def alookup {α : Type} (m : List (String × α)) (k : String) : Option α :=
  match m with
  | [] => none
  | e :: t => if e.1 = k then some e.2 else alookup t k

def aset {α : Type} (m : List (String × α)) (k : String) (v : α) : List (String × α) :=
  match m with
  | [] => [(k, v)]
  | e :: t => if e.1 = k then (k, v) :: t else e :: aset t k v

def adel {α : Type} (m : List (String × α)) (k : String) : List (String × α) :=
  m.filter (fun e => e.1 ≠ k)

/-! ### The indexed min-heap (source lines 12-60)

Comparisons `h[l] < h[i]` in `min_heapify` are Python list comparisons, i.e.
lexicographic on (key, identity); the sift-up in `heap_decrease_key` compares
keys only (`h[i][0] < h[parent(i)][0]`), exactly as in the source. -/

def parent (i : ℕ) : ℕ := (i - 1) / 2

def left (i : ℕ) : ℕ := 2 * i + 1

def right (i : ℕ) : ℕ := 2 * (i + 1)

/-- Python list comparison `[k1, id1] < [k2, id2]`. -/
def elemLt (a b : Elem) : Bool :=
  decide (a.1 < b.1) || (decide (a.1 = b.1) && strLt a.2 b.2)

/-- The index `smallest` computed by lines 22-28 of `min_heapify`. -/
def childMin (h : List Elem) (i : ℕ) : ℕ :=
  let s1 := if left i < h.length ∧ elemLt (getE h (left i)) (getE h i) then left i else i
  if right i < h.length ∧ elemLt (getE h (right i)) (getE h s1) then right i else s1

/-- Swap `h[i], h[smallest] = h[smallest], h[i]`. -/
def hswap (h : List Elem) (i j : ℕ) : List Elem :=
  setE (setE h i (getE h j)) j (getE h i)

/-- The vindex update on line 33 / line 59: after the swap of positions `i` and
`j` in `h'`, write `vindex[h'[i][1]] = i` then `vindex[h'[j][1]] = j`. -/
def vswap (h' : List Elem) (vx : VIndex) (i j : ℕ) : VIndex :=
  aset (aset vx (getE h' i).2 i) (getE h' j).2 j

theorem length_setE (h : List Elem) (i : ℕ) (x : Elem) :
    (setE h i x).length = h.length := by
  induction h generalizing i with
  | nil => rfl
  | cons a t ih =>
    cases i with
    | zero => rfl
    | succ n => simpa [setE] using ih n

theorem length_hswap (h : List Elem) (i j : ℕ) :
    (hswap h i j).length = h.length := by
  unfold hswap
  rw [length_setE, length_setE]

theorem childMin_cases (h : List Elem) (i : ℕ) :
    childMin h i = i ∨
      ((childMin h i = 2 * i + 1 ∨ childMin h i = 2 * (i + 1)) ∧
        childMin h i < h.length) := by
  simp only [childMin, left, right]
  split
  · next hl =>
    split
    · next hr => exact Or.inr ⟨Or.inr rfl, hr.1⟩
    · next hr => exact Or.inr ⟨Or.inl rfl, hl.1⟩
  · next hl =>
    split
    · next hr => exact Or.inr ⟨Or.inr rfl, hr.1⟩
    · next hr => exact Or.inl rfl

theorem childMin_lt_of_ne (h : List Elem) (i : ℕ) (hne : childMin h i ≠ i) :
    i < childMin h i ∧ childMin h i < h.length := by
  rcases childMin_cases h i with h1 | ⟨h1 | h1, h2⟩ <;> omega

def min_heapify (h : List Elem) (i : ℕ) (vx : VIndex) : List Elem × VIndex :=
  let smallest := childMin h i
  if hne : smallest = i then (h, vx)
  else
    let h' := hswap h i smallest
    min_heapify h' smallest (vswap h' vx i smallest)
termination_by h.length - i
decreasing_by
  have hlt := childMin_lt_of_ne h i hne
  have hlen := length_hswap h i (childMin h i)
  omega

/-- Source lines 36-38: `for i in range(len(h) // 2 - 1, -1, -1): min_heapify(h, i, vindex)`.
`buildFrom i` runs `min_heapify` at `i, i-1, ..., 0`. -/
def buildFrom : ℕ → List Elem → VIndex → List Elem × VIndex
  | 0, h, vx => min_heapify h 0 vx
  | i + 1, h, vx =>
    let r := min_heapify h (i + 1) vx
    buildFrom i r.1 r.2

def build_min_heap (h : List Elem) (vx : VIndex) : List Elem × VIndex :=
  if h.length < 2 then (h, vx) else buildFrom (h.length / 2 - 1) h vx

/-- Errors raised by the heap and by the driving code of the decomposition
(`IndexError('heap is empty')`, `ValueError('new key is greater...')`, and a
`KeyError` for a `vindex` lookup of an absent identity). -/
inductive HeapErr : Type
  | emptyHeap : HeapErr
  | invalidKey : HeapErr
  | keyError : HeapErr
deriving DecidableEq, Repr

/-- Source lines 40-49. -/
def heap_extract_min (h : List Elem) (vx : VIndex) :
    Except HeapErr (Elem × List Elem × VIndex) :=
  if h.length = 0 then .error .emptyHeap
  else
    let top := getE h 0
    let h1 := setE h 0 (getE h (h.length - 1))
    let vx1 := aset vx (getE h1 0).2 0
    let h2 := dropLastE h1
    let vx2 := adel vx1 top.2
    let r := min_heapify h2 0 vx2
    .ok (top, r.1, r.2)

/-- The while loop of `heap_decrease_key` (source lines 56-60). -/
def siftUp (h : List Elem) (i : ℕ) (vx : VIndex) : List Elem × VIndex :=
  if 0 < i ∧ (getE h i).1 < (getE h (parent i)).1 then
    let p := parent i
    let h' := hswap h i p
    siftUp h' p (vswap h' vx i p)
  else (h, vx)
termination_by i
decreasing_by
  simp only [parent]
  omega

/-- Source lines 51-60. -/
def heap_decrease_key (h : List Elem) (i : ℕ) (key : ℚ) (vx : VIndex) :
    Except HeapErr (List Elem × VIndex) :=
  if (getE h i).1 < key then .error .invalidKey
  else
    let h1 := setE h i (key, (getE h i).2)
    .ok (siftUp h1 i vx)

/-! ### The word graph

An igraph `Graph()` as the source uses it: a list of named vertices (in
insertion order), a list of weighted edges keyed by ordered pairs of names (at
most one orientation of each unordered pair is present for the graphs the
program builds), and the vertex attribute list `vs['weight']` set by the
builder.  `strength v` is the weighted degree of `v`. -/

structure Graph : Type where
  verts : List String
  edges : List ((String × String) × ℚ)
  vw : List ℚ
deriving DecidableEq, Repr

def strength (g : Graph) (v : String) : ℚ :=
  (g.edges.map (fun e => if e.1.1 = v ∨ e.1.2 = v then e.2 else 0)).sum

def adjacent (g : Graph) (v u : String) : Bool :=
  g.edges.any (fun e => (e.1.1 = v ∧ e.1.2 = u) ∨ (e.1.1 = u ∧ e.1.2 = v))

/-- Neighbor names of `v` (igraph's `g.vs[g.neighbors(v)]['name']`; each
neighbor of a simple graph is listed once). -/
def nbrs (g : Graph) (v : String) : List String :=
  g.verts.filter (fun u => adjacent g v u)

/-- igraph's `delete_vertices`: remove the vertex, its incident edges, and its
entry in the vertex attribute list. -/
def delV (g : Graph) (v : String) : Graph where
  verts := g.verts.filter (fun u => u ≠ v)
  edges := g.edges.filter (fun e => e.1.1 ≠ v ∧ e.1.2 ≠ v)
  vw := ((g.verts.zip g.vw).filter (fun p => p.1 ≠ v)).map (fun p => p.2)

/-- igraph's `induced_subgraph` over a set of vertex names. -/
def induced (g : Graph) (s : List String) : Graph where
  verts := g.verts.filter (fun u => u ∈ s)
  edges := g.edges.filter (fun e => e.1.1 ∈ s ∧ e.1.2 ∈ s)
  vw := ((g.verts.zip g.vw).filter (fun p => p.1 ∈ s)).map (fun p => p.2)

/-- Well-formedness of the graphs the program manipulates (the data-model
invariants of the spec): distinct vertices, no self-loops, edge endpoints are
vertices, at most one edge per unordered pair, non-negative weights. -/
def sameUPair (a b : String × String) : Prop :=
  b = a ∨ b = (a.2, a.1)

def WF (g : Graph) : Prop :=
  g.verts.Nodup ∧
  (∀ e ∈ g.edges, e.1.1 ≠ e.1.2) ∧
  (∀ e ∈ g.edges, e.1.1 ∈ g.verts ∧ e.1.2 ∈ g.verts) ∧
  g.edges.Pairwise (fun a b => ¬ sameUPair a.1 b.1) ∧
  (∀ e ∈ g.edges, 0 ≤ e.2)

/-! ### The graph-of-words builder (source lines 62-101)

Out-of-range accesses `win[i]` raise Python's `IndexError`; they are modelled
by `Except`. -/

inductive BuildErr : Type
  | indexError : BuildErr
deriving DecidableEq, Repr

def getW (win : List String) (i : ℕ) : Except BuildErr String :=
  match win.get? i with
  | some w => .ok w
  | none => .error .indexError

abbrev EdgeList := List ((String × String) × ℚ)

/-- Increment the weight of an existing key (`edges[(v1, v2)] += 1`). -/
def bumpE (es : EdgeList) (k : String × String) : EdgeList :=
  es.map (fun e => if e.1 = k then (e.1, e.2 + 1) else e)

def hasKey (es : EdgeList) (k : String × String) : Bool :=
  es.any (fun e => e.1 = k)

/-- The edge-accumulation step of lines 70-77 and 84-91. -/
def addPair (es : EdgeList) (v1 v2 : String) : EdgeList :=
  if v1 = v2 then es
  else if hasKey es (v1, v2) then bumpE es (v1, v2)
  else if hasKey es (v2, v1) then bumpE es (v2, v1)
  else es ++ [((v1, v2), 1)]

/-- First-window loop, lines 66-77: `for i in range(win_size): for j in
range(i + 1, win_size): v1, v2 = win[i], win[j]; ...`. -/
def firstWindow (win : List String) (winSize : ℕ) (es0 : EdgeList) :
    Except BuildErr EdgeList :=
  (List.range winSize).foldlM
    (fun es i =>
      (List.range' (i + 1) (winSize - (i + 1))).foldlM
        (fun es' j => do
          let v1 ← getW win i
          let v2 ← getW win j
          pure (addPair es' v1 v2))
        es)
    es0

/-- Sliding-window loop, lines 79-91: for `i` from `win_size` to
`len(words) - 1`, `win = words[i - win_size + 1 : i + 1]`, `v2 = win[-1]`,
and each `v1 = win[j]` for `j in range(win_size - 1)` is paired with `v2`. -/
def slideWindows (words : List String) (winSize : ℕ) (es0 : EdgeList) :
    Except BuildErr EdgeList :=
  (List.range' winSize (words.length - winSize)).foldlM
    (fun es i =>
      let win := (words.take (i + 1)).drop (i + 1 - winSize)
      match win.getLast? with
      | none => .error .indexError
      | some v2 =>
        (List.range (winSize - 1)).foldlM
          (fun es' j => do
            let v1 ← getW win j
            pure (addPair es' v1 v2))
          es)
    es0

/-- Source lines 62-101. -/
def build_graph_of_words (words : List String) (winSize : ℕ) :
    Except BuildErr Graph :=
  match firstWindow (words.take winSize) winSize [] with
  | .error e => .error e
  | .ok es1 =>
    match slideWindows words winSize es1 with
    | .error e => .error e
    | .ok es =>
      let vs := sortedSet words
      let g0 : Graph := ⟨vs, es, []⟩
      .ok { g0 with vw := vs.map (fun v => strength g0 v) }

/-! ### The k-core decomposition (source lines 103-118)

The state carries the caller's graph `g` (never written after the
`copy.deepcopy`), the working copy `gc`, the core dictionary, the heap and its
index, and — as a ghost observer used only by the theorems — the list `hist`
of (key, identity) pairs in extraction order. -/

structure KState : Type where
  g : Graph
  gc : Graph
  core : List (String × ℚ)
  p : List Elem
  vx : VIndex
  hist : List Elem
deriving Repr

/-- The neighbor loop of lines 114-116, run after `gc.delete_vertices`. -/
def decreaseAll (gc : Graph) (s : ℚ) :
    List String → List Elem → VIndex → Except HeapErr (List Elem × VIndex)
  | [], p, vx => .ok (p, vx)
  | v :: vs, p, vx =>
    let key := max s (strength gc v)
    match alookup vx v with
    | none => .error .keyError
    | some i =>
      match heap_decrease_key p i key vx with
      | .error e => .error e
      | .ok (p', vx') => decreaseAll gc s vs p' vx'

/-- One iteration of the while loop, lines 109-116. -/
def kstep (st : KState) : Except HeapErr KState :=
  match heap_extract_min st.p st.vx with
  | .error e => .error e
  | .ok (top, p1, vx1) =>
    let core' := aset st.core top.2 top.1
    let ns := nbrs st.gc top.2
    let gc' := delV st.gc top.2
    match decreaseAll gc' top.1 ns p1 vx1 with
    | .error e => .error e
    | .ok (p2, vx2) =>
      .ok ⟨st.g, gc', core', p2, vx2, st.hist ++ [top]⟩

/-- The while loop, driven by fuel; `k_core_run` supplies fuel equal to the
heap size, which the theorems show is exact. -/
def kloop : ℕ → KState → Except HeapErr KState
  | 0, st => .ok st
  | fuel + 1, st =>
    if st.p.length = 0 then .ok st
    else
      match kstep st with
      | .error e => .error e
      | .ok st' => kloop fuel st'

def k_core_run (g : Graph) : Except HeapErr KState :=
  let gc := g
  let core := gc.verts.map (fun v => (v, (0 : ℚ)))
  let p := gc.verts.map (fun v => (strength gc v, v))
  let vx : VIndex := gc.verts.enum.map (fun e => (e.2, e.1))
  let r := build_min_heap p vx
  kloop r.1.length ⟨g, gc, core, r.1, r.2, []⟩

/-- Source lines 103-118: the returned core dictionary. -/
def k_core_decomposition (g : Graph) : Except HeapErr (List (String × ℚ)) :=
  (k_core_run g).map (fun st => st.core)

/-! ### Keyword scoring (source lines 120-133) -/

/-- Source lines 120-122. -/
def core_rank (v : String) (g : Graph) (core : List (String × ℚ)) : ℚ :=
  ((nbrs g v).map (fun u => (alookup core u).getD 0)).sum

/-- Source lines 124-125: `math.factorial(n) // math.factorial(k) //
math.factorial(n - k)`. -/
def comb (n k : ℕ) : ℕ :=
  n.factorial / k.factorial / (n - k).factorial

/-- Source lines 127-133.  The keyword set is a duplicate-free list. -/
def keyword_quality (keywords : List String) (g : Graph)
    (core : List (String × ℚ)) (l : ℚ) : ℚ :=
  let score := (keywords.map (fun kw => core_rank kw g core)).sum
  let sg := induced g keywords
  let h : ℚ :=
    if 2 ≤ sg.verts.length then (comb sg.verts.length 2 : ℚ) - sg.edges.length
    else 0
  score - l * h

/-! ### The greedy selector (source lines 135-154) -/

inductive OptErr : Type
  | noWordSelected : OptErr
deriving DecidableEq, Repr

structure OptState : Type where
  g : Graph
  core : List (String × ℚ)
  cands : List String
  chosen : List String
  bq : ℚ
deriving DecidableEq, Repr

/-- The inner loop of lines 140-147: scan the sorted candidates tracking
`max_gain` (starting at 0) and `best_word` (starting at `None`), replacing
them only on a strictly larger gain. -/
def findBest (g : Graph) (core : List (String × ℚ)) (l : ℚ) (bq : ℚ)
    (chosen : List String) :
    List String → ℚ → Option String → ℚ × Option String
  | [], mg, bw => (mg, bw)
  | w :: ws, mg, bw =>
    let q := keyword_quality (chosen ++ [w]) g core l
    let gain := q - bq
    if mg < gain then findBest g core l bq chosen ws gain (some w)
    else findBest g core l bq chosen ws mg bw

/-- One round of the for loop, lines 140-152. -/
def optStep (l : ℚ) (st : OptState) : Except OptErr OptState :=
  let r := findBest st.g st.core l st.bq st.chosen st.cands 0 none
  match r.2 with
  | none => .error .noWordSelected
  | some w =>
    .ok ⟨st.g, st.core, st.cands.erase w, st.chosen ++ [w], st.bq + r.1⟩

def optLoop (l : ℚ) : ℕ → OptState → Except OptErr OptState
  | 0, st => .ok st
  | k + 1, st =>
    match optStep l st with
    | .error e => .error e
    | .ok st' => optLoop l k st'

def optRun (words : List String) (g : Graph) (core : List (String × ℚ))
    (l : ℚ) (k : ℕ) : Except OptErr OptState :=
  optLoop l k ⟨g, core, sortedSet words, [], 0⟩

/-- Source lines 135-154. -/
def optimize (words : List String) (g : Graph) (core : List (String × ℚ))
    (l : ℚ) (k : ℕ) : Except OptErr (List String) :=
  (optRun words g core l k).map (fun st => st.chosen)

/-! ### Association-list lemmas -/

theorem alookup_aset_self {α : Type} (m : List (String × α)) (k : String) (v : α) :
    alookup (aset m k v) k = some v := by
  induction m with
  | nil => rw [aset, alookup, if_pos rfl]
  | cons e t ih =>
    by_cases hk : e.1 = k
    · rw [aset, if_pos hk, alookup, if_pos rfl]
    · rw [aset, if_neg hk, alookup, if_neg hk, ih]

theorem alookup_aset_ne {α : Type} (m : List (String × α)) (k k' : String) (v : α)
    (hne : k' ≠ k) : alookup (aset m k v) k' = alookup m k' := by
  induction m with
  | nil =>
    simp only [aset, alookup]
    rw [if_neg (Ne.symm hne)]
  | cons e t ih =>
    by_cases hk : e.1 = k
    · rw [aset, if_pos hk]
      simp only [alookup]
      rw [if_neg (Ne.symm hne), if_neg (fun h => hne (hk.symm.trans h).symm)]
    · by_cases hk' : e.1 = k'
      · rw [aset, if_neg hk]
        simp only [alookup]
        rw [if_pos hk', if_pos hk']
      · rw [aset, if_neg hk]
        simp only [alookup]
        rw [if_neg hk', if_neg hk', ih]

theorem alookup_adel_self {α : Type} (m : List (String × α)) (k : String) :
    alookup (adel m k) k = none := by
  induction m with
  | nil => rfl
  | cons e t ih =>
    rw [adel, List.filter_cons]
    by_cases hk : e.1 = k
    · rw [if_neg (by simp [hk])]
      exact ih
    · rw [if_pos (by simp [hk]), alookup, if_neg hk]
      exact ih

theorem alookup_adel_ne {α : Type} (m : List (String × α)) (k k' : String)
    (hne : k' ≠ k) : alookup (adel m k) k' = alookup m k' := by
  induction m with
  | nil => rfl
  | cons e t ih =>
    rw [adel, List.filter_cons]
    by_cases hk : e.1 = k
    · rw [if_neg (by simp [hk]), alookup,
        if_neg (fun h => hne (hk.symm.trans h).symm)]
      exact ih
    · by_cases hk' : e.1 = k'
      · rw [if_pos (by simp [hk]), alookup, if_pos hk', alookup, if_pos hk']
      · rw [if_pos (by simp [hk]), alookup, if_neg hk', alookup, if_neg hk']
        exact ih

/-! ### Lemmas about the small list API -/

theorem getE_setE_self (h : List Elem) (i : ℕ) (x : Elem) (hi : i < h.length) :
    getE (setE h i x) i = x := by
  induction h generalizing i with
  | nil => simp at hi
  | cons a t ih =>
    cases i with
    | zero => rfl
    | succ n => exact ih n (by simpa using hi)

theorem getE_setE_ne (h : List Elem) (i j : ℕ) (x : Elem) (hne : j ≠ i) :
    getE (setE h i x) j = getE h j := by
  induction h generalizing i j with
  | nil => rfl
  | cons a t ih =>
    cases i with
    | zero =>
      cases j with
      | zero => exact absurd rfl hne
      | succ m => rfl
    | succ n =>
      cases j with
      | zero => rfl
      | succ m => exact ih n m (fun e => hne (by omega))

theorem getE_eq_get (h : List Elem) (i : ℕ) (hi : i < h.length) :
    getE h i = h.get ⟨i, hi⟩ := by
  induction h generalizing i with
  | nil => simp at hi
  | cons a t ih =>
    cases i with
    | zero => rfl
    | succ n => exact ih n (by simpa using hi)

theorem getE_mem (h : List Elem) (i : ℕ) (hi : i < h.length) : getE h i ∈ h := by
  rw [getE_eq_get h i hi]
  exact List.get_mem h i hi

theorem mem_iff_getE (h : List Elem) (e : Elem) :
    e ∈ h ↔ ∃ i, ∃ hi : i < h.length, getE h i = e := by
  constructor
  · intro hm
    rcases List.mem_iff_get.1 hm with ⟨⟨i, hi⟩, hg⟩
    exact ⟨i, hi, by rw [getE_eq_get h i hi]; exact hg⟩
  · rintro ⟨i, hi, rfl⟩
    exact getE_mem h i hi

theorem setE_cons_perm (t : List Elem) (a : Elem) (m : ℕ) (hm : m < t.length) :
    (getE t m :: setE t m a).Perm (a :: t) := by
  induction t generalizing m with
  | nil => simp at hm
  | cons b t2 ih =>
    cases m with
    | zero => exact List.Perm.swap _ _ _
    | succ n =>
      have h1 : (getE t2 n :: b :: setE t2 n a).Perm
          (b :: (getE t2 n :: setE t2 n a)) := List.Perm.swap _ _ _
      have h2 : (b :: (getE t2 n :: setE t2 n a)).Perm (b :: a :: t2) :=
        (ih n (by simpa using hm)).cons b
      exact (h1.trans h2).trans (List.Perm.swap _ _ _)

theorem hswap_perm (h : List Elem) (i j : ℕ) (hi : i < h.length)
    (hj : j < h.length) : (hswap h i j).Perm h := by
  induction h generalizing i j with
  | nil => simp at hi
  | cons a t ih =>
    cases i with
    | zero =>
      cases j with
      | zero => exact List.Perm.refl _
      | succ m =>
        show (getE t m :: setE t m a).Perm (a :: t)
        exact setE_cons_perm t a m (by simpa using hj)
    | succ n =>
      cases j with
      | zero =>
        show (getE t n :: setE t n a).Perm (a :: t)
        exact setE_cons_perm t a n (by simpa using hi)
      | succ m =>
        show (a :: hswap t n m).Perm (a :: t)
        exact (ih n m (by simpa using hi) (by simpa using hj)).cons a

theorem getE_hswap_fst (h : List Elem) (i j : ℕ) (hi : i < h.length)
    (hne : i ≠ j) : getE (hswap h i j) i = getE h j := by
  unfold hswap
  rw [getE_setE_ne _ j i _ hne, getE_setE_self h i _ hi]

theorem getE_hswap_snd (h : List Elem) (i j : ℕ) (hj : j < h.length) :
    getE (hswap h i j) j = getE h i := by
  unfold hswap
  rw [getE_setE_self _ j _ (by rw [length_setE]; exact hj)]

theorem getE_hswap_other (h : List Elem) (i j m : ℕ) (hmi : m ≠ i)
    (hmj : m ≠ j) : getE (hswap h i j) m = getE h m := by
  unfold hswap
  rw [getE_setE_ne _ j m _ hmj, getE_setE_ne _ i m _ hmi]

theorem length_dropLastE (h : List Elem) :
    (dropLastE h).length = h.length - 1 := by
  induction h with
  | nil => rfl
  | cons a t ih =>
    cases t with
    | nil => rfl
    | cons b t2 => simpa [dropLastE] using ih

theorem getE_dropLastE (h : List Elem) (m : ℕ) (hm : m < h.length - 1) :
    getE (dropLastE h) m = getE h m := by
  induction h generalizing m with
  | nil => rfl
  | cons a t ih =>
    cases t with
    | nil => simp at hm
    | cons b t2 =>
      cases m with
      | zero => rfl
      | succ n =>
        have := ih n (by simp at hm ⊢; omega)
        simpa [dropLastE, getE] using this

theorem getLast_cons_perm (t : List Elem) (hne : t ≠ []) :
    t.Perm (getE t (t.length - 1) :: dropLastE t) := by
  induction t with
  | nil => exact absurd rfl hne
  | cons x t ih =>
    cases t with
    | nil => exact List.Perm.refl _
    | cons b t2 =>
      have hxt : getE (x :: b :: t2) ((x :: b :: t2).length - 1) =
          getE (b :: t2) ((b :: t2).length - 1) := by
        simp [getE]
      rw [hxt]
      show (x :: b :: t2).Perm
        (getE (b :: t2) ((b :: t2).length - 1) :: x :: dropLastE (b :: t2))
      exact ((ih (by simp)).cons x).trans (List.Perm.swap _ _ _)

theorem extract_perm (h : List Elem) (hne : h ≠ []) :
    h.Perm (getE h 0 :: dropLastE (setE h 0 (getE h (h.length - 1)))) := by
  cases h with
  | nil => exact absurd rfl hne
  | cons a t =>
    cases t with
    | nil => exact List.Perm.refl _
    | cons b t2 =>
      have hset : setE (a :: b :: t2) 0 (getE (a :: b :: t2) ((a :: b :: t2).length - 1)) =
          getE (b :: t2) ((b :: t2).length - 1) :: b :: t2 := by
        simp [setE, getE]
      rw [hset]
      show (a :: b :: t2).Perm
        (a :: (getE (b :: t2) ((b :: t2).length - 1) :: dropLastE (b :: t2)))
      exact (getLast_cons_perm (b :: t2) (by simp)).cons a

theorem map_snd_setE_key (h : List Elem) (i : ℕ) (k : ℚ) :
    (setE h i (k, (getE h i).2)).map (fun e => e.2) = h.map (fun e => e.2) := by
  induction h generalizing i with
  | nil => rfl
  | cons a t ih =>
    cases i with
    | zero => rfl
    | succ n => simpa [setE, getE] using ih n

/-! ### Key facts about the element comparison -/

theorem elemLt_key_le {a b : Elem} (h : elemLt a b = true) : a.1 ≤ b.1 := by
  unfold elemLt at h
  rcases Bool.or_eq_true_iff.1 h with h1 | h1
  · exact le_of_lt (of_decide_eq_true h1)
  · exact le_of_eq (of_decide_eq_true (Bool.and_eq_true_iff.1 h1).1)

theorem not_elemLt_key_le {a b : Elem} (h : elemLt a b = false) : b.1 ≤ a.1 := by
  unfold elemLt at h
  rcases Bool.or_eq_false_iff.1 h with ⟨h1, _⟩
  exact le_of_not_lt (of_decide_eq_false h1)

/-! ### Subtree (descendant) indices of the implicit binary tree -/

/-- `isDesc i j` holds when array slot `j` lies in the subtree rooted at `i`. -/
def isDesc (i j : ℕ) : Bool :=
  if j = i then true
  else if j ≤ i then false
  else isDesc i (parent j)
termination_by j
decreasing_by
  simp only [parent]
  omega

theorem isDesc_self (i : ℕ) : isDesc i i = true := by
  rw [isDesc]
  simp

theorem isDesc_le {i j : ℕ} (h : isDesc i j = true) : i ≤ j := by
  by_contra hc
  rw [isDesc, if_neg (by omega), if_pos (by omega)] at h
  exact Bool.false_ne_true h

theorem isDesc_zero (j : ℕ) : isDesc 0 j = true := by
  induction j using Nat.strong_induction_on with
  | _ j ih =>
    rw [isDesc]
    rcases Nat.eq_zero_or_pos j with hj | hj
    · simp [hj]
    · rw [if_neg (by omega), if_neg (by omega)]
      exact ih (parent j) (by simp only [parent]; omega)

theorem isDesc_step {i j : ℕ} (h : isDesc i j = true) (hne : j ≠ i) :
    isDesc i (parent j) = true ∧ i < j := by
  have hle := isDesc_le h
  rw [isDesc, if_neg hne, if_neg (by omega)] at h
  exact ⟨h, by omega⟩

theorem isDesc_of_parent {i j : ℕ} (h : isDesc i (parent j) = true)
    (hj : i < j) : isDesc i j = true := by
  rw [isDesc, if_neg (by omega), if_neg (by omega)]
  exact h

theorem isDesc_trans {i j k : ℕ} (h1 : isDesc i j = true)
    (h2 : isDesc j k = true) : isDesc i k = true := by
  induction k using Nat.strong_induction_on with
  | _ k ih =>
    by_cases hk : k = j
    · exact hk ▸ h1
    · have hs := isDesc_step h2 hk
      have hik : i < k := lt_of_le_of_lt (isDesc_le h1) hs.2
      exact isDesc_of_parent
        (ih (parent k) (by simp only [parent]; omega) hs.1) hik

theorem isDesc_child_left (i j : ℕ) (h : isDesc i j = true) :
    isDesc i (2 * j + 1) = true :=
  isDesc_trans h (isDesc_of_parent
    (by have : parent (2 * j + 1) = j := by simp only [parent]; omega
        rw [this]; exact isDesc_self j)
    (by omega))

theorem isDesc_child_right (i j : ℕ) (h : isDesc i j = true) :
    isDesc i (2 * (j + 1)) = true :=
  isDesc_trans h (isDesc_of_parent
    (by have : parent (2 * (j + 1)) = j := by simp only [parent]; omega
        rw [this]; exact isDesc_self j)
    (by omega))

theorem not_isDesc_of_lt {i j : ℕ} (h : j < i) : isDesc i j = false := by
  cases hb : isDesc i j
  · rfl
  · exact absurd (isDesc_le hb) (by omega)

/-! ### Heap invariants -/

def keyAt (h : List Elem) (i : ℕ) : ℚ := (getE h i).1

/-- The subtree below `i` is heap-ordered except possibly at the edges leaving
`i` itself: the precondition of `min_heapify h i`. -/
def SubHeapPre (h : List Elem) (i : ℕ) : Prop :=
  ∀ j, 0 < j → j < h.length → isDesc i (parent j) = true → parent j ≠ i →
    keyAt h (parent j) ≤ keyAt h j

/-- The subtree below `i` is heap-ordered: the postcondition of
`min_heapify h i`. -/
def SubHeap (h : List Elem) (i : ℕ) : Prop :=
  ∀ j, 0 < j → j < h.length → isDesc i (parent j) = true →
    keyAt h (parent j) ≤ keyAt h j

/-- The key heap invariant: every parent key is at most its children's keys. -/
def IsMinHeap (h : List Elem) : Prop :=
  ∀ j, 0 < j → j < h.length → keyAt h (parent j) ≤ keyAt h j

/-- The identity→position index points at the slot holding each identity. -/
def VCorrect (h : List Elem) (vx : VIndex) : Prop :=
  ∀ j, j < h.length → alookup vx (getE h j).2 = some j

/-- Identities in the heap are distinct (Python requires this for `vindex`). -/
def IdsNodup (h : List Elem) : Prop :=
  (h.map (fun e => e.2)).Nodup

theorem isMinHeap_iff_subHeap_zero (h : List Elem) :
    IsMinHeap h ↔ SubHeap h 0 := by
  constructor
  · intro hh j h1 h2 _
    exact hh j h1 h2
  · intro hh j h1 h2
    exact hh j h1 h2 (isDesc_zero (parent j))

theorem subHeap_root_min (h : List Elem) (r : ℕ)
    (hpre : ∀ j, 0 < j → j < h.length → isDesc r (parent j) = true →
      keyAt h (parent j) ≤ keyAt h j) :
    ∀ m, m < h.length → isDesc r m = true → keyAt h r ≤ keyAt h m := by
  intro m
  induction m using Nat.strong_induction_on with
  | _ m ih =>
    intro hm hd
    by_cases hmr : m = r
    · exact le_of_eq (by rw [hmr])
    · have hs := isDesc_step hd hmr
      have hp : parent m < m := by simp only [parent]; omega
      exact le_trans (ih (parent m) hp (by omega) hs.1)
        (hpre m (by omega) hm hs.1)

theorem root_min (h : List Elem) (hh : IsMinHeap h) :
    ∀ m, m < h.length → keyAt h 0 ≤ keyAt h m := by
  intro m hm
  exact subHeap_root_min h 0 (fun j h1 h2 _ => hh j h1 h2) m hm (isDesc_zero m)

theorem ids_getE_ne (h : List Elem) (hn : IdsNodup h) (i j : ℕ)
    (hi : i < h.length) (hj : j < h.length) (hne : i ≠ j) :
    (getE h i).2 ≠ (getE h j).2 := by
  intro he
  have hmap : (h.map (fun e => e.2)).get ⟨i, by simpa using hi⟩ =
      (h.map (fun e => e.2)).get ⟨j, by simpa using hj⟩ := by
    simp only [List.get_map]
    rw [← getE_eq_get h i hi, ← getE_eq_get h j hj]
    exact he
  have := (List.Nodup.get_inj_iff hn).1 hmap
  exact hne (by simpa using this)

/-- The minimality facts delivered by the `smallest` computation of
`min_heapify` (lines 22-28): the selected slot's key is at most the keys at
`i` and at both in-range children of `i`. -/
theorem childMin_min (h : List Elem) (i : ℕ) :
    keyAt h (childMin h i) ≤ keyAt h i ∧
      (∀ o, (o = 2 * i + 1 ∨ o = 2 * (i + 1)) → o < h.length →
        keyAt h (childMin h i) ≤ keyAt h o) := by
  simp only [childMin, left, right]
  split
  · next hl =>
    split
    · next hr =>
      refine ⟨le_trans (elemLt_key_le hr.2) (elemLt_key_le hl.2), ?_⟩
      intro o ho hlen
      rcases ho with ho | ho
      · subst ho
        exact elemLt_key_le hr.2
      · subst ho
        exact le_refl _
    · next hr =>
      refine ⟨elemLt_key_le hl.2, ?_⟩
      intro o ho hlen
      rcases ho with ho | ho
      · subst ho
        exact le_refl _
      · subst ho
        exact not_elemLt_key_le (Bool.eq_false_iff.2 (fun hb => hr ⟨hlen, hb⟩))
  · next hl =>
    split
    · next hr =>
      refine ⟨elemLt_key_le hr.2, ?_⟩
      intro o ho hlen
      rcases ho with ho | ho
      · subst ho
        exact le_trans (elemLt_key_le hr.2)
          (not_elemLt_key_le (Bool.eq_false_iff.2 (fun hb => hl ⟨hlen, hb⟩)))
      · subst ho
        exact le_refl _
    · next hr =>
      refine ⟨le_refl _, ?_⟩
      intro o ho hlen
      rcases ho with ho | ho
      · subst ho
        exact not_elemLt_key_le (Bool.eq_false_iff.2 (fun hb => hl ⟨hlen, hb⟩))
      · subst ho
        exact not_elemLt_key_le (Bool.eq_false_iff.2 (fun hb => hr ⟨hlen, hb⟩))

/-- Swapping two slots and performing the paired `vindex` writes preserves the
index invariant. -/
theorem VCorrect_hswap (h : List Elem) (vx : VIndex) (i j : ℕ)
    (hi : i < h.length) (hj : j < h.length) (hv : VCorrect h vx)
    (hn : IdsNodup h) :
    VCorrect (hswap h i j) (vswap (hswap h i j) vx i j) := by
  intro m hm
  rw [length_hswap] at hm
  by_cases hij : i = j
  · subst hij
    have hgi : getE (hswap h i i) i = getE h i := by
      unfold hswap
      rw [getE_setE_self _ i _ (by rw [length_setE]; exact hi)]
    by_cases hmi : m = i
    · subst hmi
      rw [hgi]
      unfold vswap
      rw [hgi, alookup_aset_self]
    · have hgm : getE (hswap h i i) m = getE h m := by
        unfold hswap
        rw [getE_setE_ne _ i m _ hmi, getE_setE_ne _ i m _ hmi]
      rw [hgm]
      unfold vswap
      rw [hgi]
      have hne1 : (getE h m).2 ≠ (getE h i).2 := ids_getE_ne h hn m i hm hi hmi
      rw [alookup_aset_ne _ _ _ _ hne1, alookup_aset_ne _ _ _ _ hne1]
      exact hv m hm
  · have hgi : getE (hswap h i j) i = getE h j := getE_hswap_fst h i j hi hij
    have hgj : getE (hswap h i j) j = getE h i := getE_hswap_snd h i j hj
    by_cases hmj : m = j
    · rw [hmj, hgj]
      unfold vswap
      rw [hgj, alookup_aset_self]
    · by_cases hmi : m = i
      · rw [hmi, hgi]
        unfold vswap
        rw [hgj, hgi]
        have hne1 : (getE h j).2 ≠ (getE h i).2 :=
          ids_getE_ne h hn j i hj hi (fun e => hij e.symm)
        rw [alookup_aset_ne _ _ _ _ hne1, alookup_aset_self]
      · have hgm : getE (hswap h i j) m = getE h m :=
          getE_hswap_other h i j m hmi hmj
        rw [hgm]
        unfold vswap
        rw [hgj, hgi]
        have hne1 : (getE h m).2 ≠ (getE h i).2 := ids_getE_ne h hn m i hm hi hmi
        have hne2 : (getE h m).2 ≠ (getE h j).2 := ids_getE_ne h hn m j hm hj hmj
        rw [alookup_aset_ne _ _ _ _ hne1, alookup_aset_ne _ _ _ _ hne2]
        exact hv m hm

theorem min_heapify_eq_self (h : List Elem) (i : ℕ) (vx : VIndex)
    (he : childMin h i = i) : min_heapify h i vx = (h, vx) := by
  rw [min_heapify]
  simp [he]

theorem min_heapify_eq_step (h : List Elem) (i : ℕ) (vx : VIndex)
    (he : childMin h i ≠ i) :
    min_heapify h i vx =
      min_heapify (hswap h i (childMin h i)) (childMin h i)
        (vswap (hswap h i (childMin h i)) vx i (childMin h i)) := by
  rw [min_heapify]
  simp [he]

theorem childMin_eq_self_of_le (h : List Elem) (i : ℕ) (hle : h.length ≤ i) :
    childMin h i = i := by
  simp only [childMin, left, right]
  rw [if_neg (by omega)]
  rw [if_neg (by omega)]

/-- Conclusions of the `min_heapify` master specification, as a predicate of
the input and output states. -/
def HeapifyPost (h : List Elem) (i : ℕ) (vx : VIndex)
    (r : List Elem × VIndex) : Prop :=
  r.1.length = h.length ∧
  r.1.Perm h ∧
  (∀ m, m < h.length → isDesc i m = false → getE r.1 m = getE h m) ∧
  (∀ m, m < h.length → isDesc i m = true →
    ∃ m₀, m₀ < h.length ∧ isDesc i m₀ = true ∧ getE r.1 m = getE h m₀) ∧
  SubHeap r.1 i ∧
  (VCorrect h vx → IdsNodup h → VCorrect r.1 r.2)

theorem min_heapify_spec_self (h : List Elem) (i : ℕ) (vx : VIndex)
    (pre : SubHeapPre h i) (he : childMin h i = i) :
    HeapifyPost h i vx (min_heapify h i vx) := by
  rw [min_heapify_eq_self h i vx he]
  refine ⟨rfl, List.Perm.refl _, fun m _ _ => rfl,
    fun m hm hd => ⟨m, hm, hd, rfl⟩, ?_, fun hv _ => hv⟩
  intro j hj0 hjl hdp
  by_cases hpi : parent j = i
  · have hj2 : j = 2 * i + 1 ∨ j = 2 * (i + 1) := by
      simp only [parent] at hpi
      omega
    have hmin := (childMin_min h i).2 j hj2 hjl
    rw [he] at hmin
    rw [hpi]
    exact hmin
  · exact pre j hj0 hjl hdp hpi

theorem min_heapify_spec_aux (n : ℕ) : ∀ (h : List Elem) (i : ℕ) (vx : VIndex),
    h.length - i ≤ n → SubHeapPre h i →
    HeapifyPost h i vx (min_heapify h i vx) := by
  induction n with
  | zero =>
    intro h i vx hn pre
    exact min_heapify_spec_self h i vx pre
      (childMin_eq_self_of_le h i (by omega))
  | succ n ihn =>
    intro h i vx hn pre
    by_cases he : childMin h i = i
    · exact min_heapify_spec_self h i vx pre he
    · have hlt := childMin_lt_of_ne h i he
      have hi : i < h.length := lt_trans hlt.1 hlt.2
      have hc : childMin h i < h.length := hlt.2
      have hchild : childMin h i = 2 * i + 1 ∨ childMin h i = 2 * (i + 1) := by
        rcases childMin_cases h i with h1 | ⟨h1, _⟩
        · exact absurd h1 he
        · exact h1
      have hdc : isDesc i (childMin h i) = true := by
        rcases hchild with h1 | h1
        · rw [h1]
          exact isDesc_child_left i i (isDesc_self i)
        · rw [h1]
          exact isDesc_child_right i i (isDesc_self i)
      set c := childMin h i with hcdef
      set h' := hswap h i c with hpdef
      have hlen' : h'.length = h.length := length_hswap h i c
      have hg_i : getE h' i = getE h c :=
        getE_hswap_fst h i c hi (by omega)
      have hg_c : getE h' c = getE h i := getE_hswap_snd h i c hc
      have hg_o : ∀ m, m ≠ i → m ≠ c → getE h' m = getE h m :=
        fun m h1 h2 => getE_hswap_other h i c m h1 h2
      have hdi_c : isDesc c i = false := not_isDesc_of_lt hlt.1
      have pre' : SubHeapPre h' c := by
        intro j hj0 hjl hdp hpc
        have hcp : c < parent j := by
          have := isDesc_le hdp
          omega
        have hpj : parent j < j := by
          simp only [parent]
          omega
        have e1 : getE h' (parent j) = getE h (parent j) :=
          hg_o (parent j) (by omega) (by omega)
        have e2 : getE h' j = getE h j := hg_o j (by omega) (by omega)
        simp only [keyAt, e1, e2]
        exact pre j hj0 (hlen' ▸ hjl) (isDesc_trans hdc hdp) (by omega)
      have hrootmin : ∀ m, m < h.length → isDesc c m = true →
          keyAt h c ≤ keyAt h m := by
        refine subHeap_root_min h c ?_
        intro j hj0 hjl hdp
        have hcp : c ≤ parent j := isDesc_le hdp
        exact pre j hj0 hjl (isDesc_trans hdc hdp) (by omega)
      have hmeas : h'.length - c ≤ n := by omega
      rcases ihn h' c (vswap h' vx i c) hmeas pre' with ⟨L, P, U, E, S, V⟩
      rw [min_heapify_eq_step h i vx he]
      refine ⟨L.trans hlen', P.trans (hswap_perm h i c hi hc), ?_, ?_, ?_, ?_⟩
      · intro m hm hdm
        have hm1 : m ≠ i := by
          intro e
          rw [e, isDesc_self] at hdm
          simp at hdm
        have hm2 : m ≠ c := by
          intro e
          rw [e] at hdm
          rw [hdm] at hdc
          exact Bool.false_ne_true hdc
        have hm3 : isDesc c m = false := by
          cases hb : isDesc c m
          · rfl
          · rw [isDesc_trans hdc hb] at hdm
            simp at hdm
        rw [U m (hlen' ▸ hm) hm3]
        exact hg_o m hm1 hm2
      · intro m hm hdm
        cases hb : isDesc c m with
        | true =>
          rcases E m (hlen' ▸ hm) hb with ⟨m0, hm0l, hm0d, hm0e⟩
          by_cases hm0c : m0 = c
          · refine ⟨i, hi, isDesc_self i, ?_⟩
            rw [hm0e, hm0c, hg_c]
          · have hcm0 : c < m0 := by
              have := isDesc_le hm0d
              omega
            refine ⟨m0, hlen' ▸ hm0l, isDesc_trans hdc hm0d, ?_⟩
            rw [hm0e, hg_o m0 (by omega) hm0c]
        | false =>
          by_cases hmi : m = i
          · refine ⟨c, hc, hdc, ?_⟩
            rw [hmi, U i (hlen' ▸ hi) hdi_c, hg_i]
          · have hmc : m ≠ c := by
              intro e
              rw [e, isDesc_self] at hb
              simp at hb
            refine ⟨m, hm, hdm, ?_⟩
            rw [U m (hlen' ▸ hm) hb, hg_o m hmi hmc]
      · intro j hj0 hjl hdp
        rw [L, hlen'] at hjl
        cases hbp : isDesc c (parent j) with
        | true => exact S j hj0 (by rw [L, hlen']; exact hjl) hbp
        | false =>
          by_cases hpi : parent j = i
          · have hj2 : j = 2 * i + 1 ∨ j = 2 * (i + 1) := by
              simp only [parent] at hpi
              omega
            have hgRi : getE (min_heapify h' c (vswap h' vx i c)).1 i =
                getE h c := by
              rw [U i (hlen' ▸ hi) hdi_c, hg_i]
            by_cases hjc : j = c
            · rcases E c (hlen' ▸ hc) (isDesc_self c) with ⟨m0, hm0l, hm0d, hm0e⟩
              simp only [keyAt]
              rw [hpi, hgRi, hjc, hm0e]
              by_cases hm0c : m0 = c
              · rw [hm0c, hg_c]
                exact (childMin_min h i).1
              · have hcm0 : c < m0 := by
                  have := isDesc_le hm0d
                  omega
                rw [hg_o m0 (by omega) hm0c]
                exact hrootmin m0 (hlen' ▸ hm0l) hm0d
            · have hjne_i : j ≠ i := by
                simp only [parent] at hpi
                omega
              have hjdc : isDesc c j = false := by
                cases hb : isDesc c j
                · rfl
                · have hstep := (isDesc_step hb hjc).1
                  rw [hpi] at hstep
                  rw [hstep] at hdi_c
                  exact absurd hdi_c (by simp)
              simp only [keyAt]
              rw [hpi, hgRi, U j (hlen' ▸ hjl) hjdc, hg_o j hjne_i hjc]
              exact (childMin_min h i).2 j hj2 hjl
          · have hipj : i ≤ parent j := isDesc_le hdp
            have hpj_lt : parent j < j := by
              simp only [parent]
              omega
            have hpne_c : parent j ≠ c := by
              intro e
              rw [e, isDesc_self] at hbp
              simp at hbp
            have hpne_i : parent j ≠ i := hpi
            have hjne_i : j ≠ i := by omega
            have hjne_c : j ≠ c := by
              intro e
              refine hpi ?_
              rw [e]
              rcases hchild with h1 | h1 <;>
                (rw [h1]; simp only [parent]; omega)
            have hjdc : isDesc c j = false := by
              cases hb : isDesc c j
              · rfl
              · have hstep := (isDesc_step hb hjne_c).1
                rw [hstep] at hbp
                exact absurd hbp (by simp)
            simp only [keyAt]
            rw [U (parent j) (by omega) hbp, U j (hlen' ▸ hjl) hjdc,
              hg_o (parent j) hpne_i hpne_c, hg_o j hjne_i hjne_c]
            exact pre j hj0 hjl hdp hpi
      · intro hv hn2
        have hn' : IdsNodup h' := by
          unfold IdsNodup
          exact (List.Perm.nodup_iff ((hswap_perm h i c hi hc).map _)).2 hn2
        exact V (VCorrect_hswap h vx i c hi hc hv hn2) hn'

theorem min_heapify_spec (h : List Elem) (i : ℕ) (vx : VIndex)
    (pre : SubHeapPre h i) : HeapifyPost h i vx (min_heapify h i vx) :=
  min_heapify_spec_aux h.length h i vx (by omega) pre

/-! ### Specification of `build_min_heap` -/

/-- Before processing slot `i` in the bottom-up build, all edges whose parent
slot lies strictly above `i` are already heap-ordered. -/
def BuildPre (h : List Elem) (i : ℕ) : Prop :=
  ∀ j, 0 < j → j < h.length → i < parent j → keyAt h (parent j) ≤ keyAt h j

theorem buildFrom_spec (i : ℕ) : ∀ (h : List Elem) (vx : VIndex),
    BuildPre h i →
    (buildFrom i h vx).1.length = h.length ∧
    (buildFrom i h vx).1.Perm h ∧
    IsMinHeap (buildFrom i h vx).1 ∧
    (VCorrect h vx → IdsNodup h →
      VCorrect (buildFrom i h vx).1 (buildFrom i h vx).2) := by
  induction i with
  | zero =>
    intro h vx pre
    have pre0 : SubHeapPre h 0 := by
      intro j hj0 hjl _ hpne
      exact pre j hj0 hjl (by omega)
    rcases min_heapify_spec h 0 vx pre0 with ⟨L, P, _, _, S, V⟩
    exact ⟨L, P, (isMinHeap_iff_subHeap_zero _).2 S, V⟩
  | succ i ihn =>
    intro h vx pre
    have pre1 : SubHeapPre h (i + 1) := by
      intro j hj0 hjl hdp hpne
      have := isDesc_le hdp
      exact pre j hj0 hjl (by omega)
    rcases min_heapify_spec h (i + 1) vx pre1 with ⟨L, P, U, _, S, V⟩
    have pre2 : BuildPre (min_heapify h (i + 1) vx).1 i := by
      intro j hj0 hjl hip
      rw [L] at hjl
      cases hbp : isDesc (i + 1) (parent j) with
      | true => exact S j hj0 (by rw [L]; exact hjl) hbp
      | false =>
        have hpj : parent j < j := by
          simp only [parent]
          omega
        have hjne : isDesc (i + 1) j = false := by
          cases hb : isDesc (i + 1) j
          · rfl
          · by_cases hj1 : j = i + 1
            · exfalso
              rw [hj1] at hip
              simp only [parent] at hip
              omega
            · rw [(isDesc_step hb hj1).1] at hbp
              simp at hbp
        have hpne1 : parent j ≠ i + 1 := by
          intro e
          rw [e, isDesc_self] at hbp
          simp at hbp
        simp only [keyAt]
        rw [U (parent j) (by omega) hbp, U j hjl hjne]
        exact pre j hj0 hjl (by omega)
    rcases ihn (min_heapify h (i + 1) vx).1 (min_heapify h (i + 1) vx).2 pre2 with
      ⟨L2, P2, H2, V2⟩
    refine ⟨?_, ?_, ?_, ?_⟩
    · show (buildFrom i _ _).1.length = h.length
      rw [L2, L]
    · exact P2.trans P
    · exact H2
    · intro hv hn
      refine V2 (V hv hn) ?_
      unfold IdsNodup
      exact (List.Perm.nodup_iff (P.map _)).2 hn

theorem build_min_heap_spec (h : List Elem) (vx : VIndex) :
    (build_min_heap h vx).1.length = h.length ∧
    (build_min_heap h vx).1.Perm h ∧
    IsMinHeap (build_min_heap h vx).1 ∧
    (VCorrect h vx → IdsNodup h →
      VCorrect (build_min_heap h vx).1 (build_min_heap h vx).2) := by
  unfold build_min_heap
  by_cases hl : h.length < 2
  · rw [if_pos hl]
    refine ⟨rfl, List.Perm.refl _, ?_, fun hv _ => hv⟩
    intro j hj0 hjl
    have hjl2 : j < h.length := hjl
    omega
  · rw [if_neg hl]
    refine buildFrom_spec (h.length / 2 - 1) h vx ?_
    intro j hj0 hjl hip
    exfalso
    simp only [parent] at hip
    omega

/-! ### Specification of `heap_extract_min` -/

theorem heap_extract_min_spec (h : List Elem) (vx : VIndex)
    (hne : h.length ≠ 0) (hheap : IsMinHeap h) (hv : VCorrect h vx)
    (hn : IdsNodup h) :
    heap_extract_min h vx =
      .ok (getE h 0,
        (min_heapify (dropLastE (setE h 0 (getE h (h.length - 1)))) 0
          (adel (aset vx (getE h (h.length - 1)).2 0) (getE h 0).2)).1,
        (min_heapify (dropLastE (setE h 0 (getE h (h.length - 1)))) 0
          (adel (aset vx (getE h (h.length - 1)).2 0) (getE h 0).2)).2) ∧
    (∀ e ∈ h, (getE h 0).1 ≤ e.1) ∧
    h.Perm (getE h 0 ::
      (min_heapify (dropLastE (setE h 0 (getE h (h.length - 1)))) 0
        (adel (aset vx (getE h (h.length - 1)).2 0) (getE h 0).2)).1) ∧
    (min_heapify (dropLastE (setE h 0 (getE h (h.length - 1)))) 0
      (adel (aset vx (getE h (h.length - 1)).2 0) (getE h 0).2)).1.length =
      h.length - 1 ∧
    IsMinHeap (min_heapify (dropLastE (setE h 0 (getE h (h.length - 1)))) 0
      (adel (aset vx (getE h (h.length - 1)).2 0) (getE h 0).2)).1 ∧
    VCorrect
      (min_heapify (dropLastE (setE h 0 (getE h (h.length - 1)))) 0
        (adel (aset vx (getE h (h.length - 1)).2 0) (getE h 0).2)).1
      (min_heapify (dropLastE (setE h 0 (getE h (h.length - 1)))) 0
        (adel (aset vx (getE h (h.length - 1)).2 0) (getE h 0).2)).2 ∧
    IdsNodup (min_heapify (dropLastE (setE h 0 (getE h (h.length - 1)))) 0
      (adel (aset vx (getE h (h.length - 1)).2 0) (getE h 0).2)).1 := by
  have h0 : 0 < h.length := by omega
  set top := getE h 0 with htop
  set lst := getE h (h.length - 1) with hlst
  set h1 := setE h 0 lst with hh1
  set h2 := dropLastE h1 with hh2
  set vx2 := adel (aset vx lst.2 0) top.2 with hvx2
  have hlen1 : h1.length = h.length := length_setE h 0 lst
  have hlen2 : h2.length = h.length - 1 := by
    rw [hh2, length_dropLastE, hlen1]
  have hg10 : getE h1 0 = lst := getE_setE_self h 0 lst h0
  have hg1ne : ∀ m, m ≠ 0 → getE h1 m = getE h m :=
    fun m hm => getE_setE_ne h 0 m lst hm
  have hg2 : ∀ m, m < h.length - 1 → getE h2 m = getE h1 m := by
    intro m hm
    rw [hh2]
    exact getE_dropLastE h1 m (by omega)
  have hperm0 : h.Perm (top :: h2) := by
    rw [hh2, hh1, htop, hlst]
    exact extract_perm h (by intro e; rw [e] at hne; exact hne rfl)
  have hncons : (top.2 :: h2.map (fun e => e.2)).Nodup := by
    have hn3 : (h.map (fun e : Elem => e.2)).Nodup := hn
    have := (List.Perm.nodup_iff (hperm0.map (fun e : Elem => e.2))).1 hn3
    simpa using this
  have hn2 : IdsNodup h2 := (List.nodup_cons.1 hncons).2
  have htopnot : top.2 ∉ h2.map (fun e => e.2) := (List.nodup_cons.1 hncons).1
  have hv2 : VCorrect h2 vx2 := by
    intro m hm
    rw [hlen2] at hm
    have hid2 : (getE h2 m).2 ∈ h2.map (fun e => e.2) := by
      have := getE_mem h2 m (by omega)
      exact List.mem_map_of_mem _ this
    have hidtop : (getE h2 m).2 ≠ top.2 := by
      intro e
      rw [e] at hid2
      exact htopnot hid2
    rw [hvx2, alookup_adel_ne _ _ _ hidtop]
    by_cases hm0 : m = 0
    · rw [hm0, hg2 0 (by omega), hg10, alookup_aset_self]
    · rw [hg2 m hm, hg1ne m hm0]
      have hmlast : (getE h m).2 ≠ lst.2 := by
        rw [hlst]
        exact ids_getE_ne h hn m (h.length - 1) (by omega) (by omega) (by omega)
      rw [alookup_aset_ne _ _ _ _ hmlast]
      exact hv m (by omega)
  have pre2 : SubHeapPre h2 0 := by
    intro j hj0 hjl hdp hpne
    rw [hlen2] at hjl
    have hpj : parent j < j := by
      simp only [parent]
      omega
    simp only [keyAt]
    rw [hg2 j hjl, hg2 (parent j) (by omega), hg1ne j (by omega),
      hg1ne (parent j) hpne]
    exact hheap j hj0 (by omega)
  rcases min_heapify_spec h2 0 vx2 pre2 with ⟨L, P, _, _, S, V⟩
  have heq : heap_extract_min h vx =
      .ok (top, (min_heapify h2 0 (adel (aset vx (getE h1 0).2 0) top.2)).1,
        (min_heapify h2 0 (adel (aset vx (getE h1 0).2 0) top.2)).2) := by
    rw [heap_extract_min, if_neg hne]
  rw [hg10] at heq
  refine ⟨heq, ?_, ?_, ?_, ?_, ?_, ?_⟩
  · intro e he
    rcases (mem_iff_getE h e).1 he with ⟨m, hm, hme⟩
    rw [← hme]
    exact root_min h hheap m hm
  · exact hperm0.trans (P.cons top).symm
  · rw [L, hlen2]
  · exact (isMinHeap_iff_subHeap_zero _).2 S
  · exact V hv2 hn2
  · unfold IdsNodup
    exact (List.Perm.nodup_iff (P.map _)).2 hn2

/-! ### Specification of `heap_decrease_key` -/

theorem siftUp_eq_step (h : List Elem) (i : ℕ) (vx : VIndex)
    (hc : 0 < i ∧ (getE h i).1 < (getE h (parent i)).1) :
    siftUp h i vx =
      siftUp (hswap h i (parent i)) (parent i)
        (vswap (hswap h i (parent i)) vx i (parent i)) := by
  rw [siftUp]
  simp [hc]

theorem siftUp_eq_stop (h : List Elem) (i : ℕ) (vx : VIndex)
    (hc : ¬(0 < i ∧ (getE h i).1 < (getE h (parent i)).1)) :
    siftUp h i vx = (h, vx) := by
  rw [siftUp]
  simp only [if_neg hc]

/-- The sift-up invariant: the heap is ordered except possibly on the edge
into slot `i`, and the key above `i` already bounds the keys of `i`'s
children. -/
def UpPre (h : List Elem) (i : ℕ) : Prop :=
  (∀ j, 0 < j → j < h.length → j ≠ i → keyAt h (parent j) ≤ keyAt h j) ∧
  (0 < i → ∀ c, c < h.length → parent c = i → keyAt h (parent i) ≤ keyAt h c)

theorem siftUp_spec (i : ℕ) : ∀ (h : List Elem) (vx : VIndex),
    i < h.length → UpPre h i →
    (siftUp h i vx).1.length = h.length ∧
    (siftUp h i vx).1.Perm h ∧
    IsMinHeap (siftUp h i vx).1 ∧
    (VCorrect h vx → IdsNodup h →
      VCorrect (siftUp h i vx).1 (siftUp h i vx).2) := by
  induction i using Nat.strong_induction_on with
  | _ i ihn =>
    intro h vx hi hup
    by_cases hc : 0 < i ∧ (getE h i).1 < (getE h (parent i)).1
    · have hi0 : 0 < i := hc.1
      have hpi : parent i < i := by
        simp only [parent]
        omega
      have hpl : parent i < h.length := by omega
      set p := parent i with hpdef
      set h' := hswap h i p with hpdef2
      have hlen' : h'.length = h.length := length_hswap h i p
      have hg_i : getE h' i = getE h p := getE_hswap_fst h i p hi (by omega)
      have hg_p : getE h' p = getE h i := getE_hswap_snd h i p hpl
      have hg_o : ∀ m, m ≠ i → m ≠ p → getE h' m = getE h m :=
        fun m h1 h2 => getE_hswap_other h i p m h1 h2
      have hup' : UpPre h' p := by
        constructor
        · intro j hj0 hjl hjp
          rw [hlen'] at hjl
          by_cases hji : j = i
          · rw [hji]
            simp only [keyAt]
            rw [← hpdef, hg_p, hg_i]
            exact le_of_lt hc.2
          · by_cases hpj_p : parent j = p
            · simp only [keyAt]
              rw [hpj_p, hg_p, hg_o j hji hjp]
              have h2 := hup.1 j hj0 hjl hji
              rw [hpj_p] at h2
              exact le_trans (le_of_lt hc.2) h2
            · by_cases hpj_i : parent j = i
              · have hij : i < j := by
                  simp only [parent] at hpj_i
                  omega
                simp only [keyAt]
                rw [hpj_i, hg_i, hg_o j hji (by omega)]
                have := hup.2 hi0 j hjl hpj_i
                rw [← hpdef] at this
                exact this
              · simp only [keyAt]
                rw [hg_o j hji hjp, hg_o (parent j) hpj_i hpj_p]
                exact hup.1 j hj0 hjl hji
        · intro hp0 c hcl hpc
          rw [hlen'] at hcl
          have hppp : parent p < p := by
            simp only [parent]
            omega
          have hgpp : getE h' (parent p) = getE h (parent p) :=
            hg_o (parent p) (by omega) (by omega)
          by_cases hci : c = i
          · simp only [keyAt]
            rw [hgpp, hci, hg_i]
            exact hup.1 p hp0 hpl (by omega)
          · have hcp : c ≠ p := by
              intro e
              rw [e] at hpc
              simp only [parent] at hpc
              omega
            have hc0 : 0 < c := by
              simp only [parent] at hpc
              omega
            simp only [keyAt]
            rw [hgpp, hg_o c hci hcp]
            have h3 := hup.1 c hc0 hcl hci
            rw [hpc] at h3
            exact le_trans (hup.1 p hp0 hpl (by omega)) h3
      rcases ihn p hpi h' (vswap h' vx i p) (by omega) hup' with ⟨L, P, H, V⟩
      rw [siftUp_eq_step h i vx hc]
      refine ⟨by rw [L, hlen'], P.trans (hswap_perm h i p hi hpl), H, ?_⟩
      intro hv hn
      refine V (VCorrect_hswap h vx i p hi hpl hv hn) ?_
      unfold IdsNodup
      exact (List.Perm.nodup_iff ((hswap_perm h i p hi hpl).map _)).2 hn
    · rw [siftUp_eq_stop h i vx hc]
      refine ⟨rfl, List.Perm.refl _, ?_, fun hv _ => hv⟩
      intro j hj0 hjl
      have hjl2 : j < h.length := hjl
      by_cases hji : j = i
      · rw [hji]
        have hnl : ¬ (getE h i).1 < (getE h (parent i)).1 := by
          intro hlt
          exact hc ⟨by omega, hlt⟩
        exact le_of_not_lt hnl
      · exact hup.1 j hj0 hjl2 hji

theorem heap_decrease_key_spec (h : List Elem) (i : ℕ) (key : ℚ)
    (vx : VIndex) (hi : i < h.length) (hheap : IsMinHeap h)
    (hk : key ≤ (getE h i).1) :
    heap_decrease_key h i key vx =
      .ok (siftUp (setE h i (key, (getE h i).2)) i vx) ∧
    (siftUp (setE h i (key, (getE h i).2)) i vx).1.Perm
      (setE h i (key, (getE h i).2)) ∧
    (siftUp (setE h i (key, (getE h i).2)) i vx).1.length = h.length ∧
    IsMinHeap (siftUp (setE h i (key, (getE h i).2)) i vx).1 ∧
    (VCorrect h vx → IdsNodup h →
      VCorrect (siftUp (setE h i (key, (getE h i).2)) i vx).1
          (siftUp (setE h i (key, (getE h i).2)) i vx).2 ∧
        IdsNodup (siftUp (setE h i (key, (getE h i).2)) i vx).1) := by
  set h1 := setE h i (key, (getE h i).2) with hh1
  have hlen1 : h1.length = h.length := length_setE h i _
  have hg1i : getE h1 i = (key, (getE h i).2) := getE_setE_self h i _ hi
  have hg1ne : ∀ m, m ≠ i → getE h1 m = getE h m :=
    fun m hm => getE_setE_ne h i m _ hm
  have hupre : UpPre h1 i := by
    constructor
    · intro j hj0 hjl hji
      rw [hlen1] at hjl
      by_cases hpj : parent j = i
      · simp only [keyAt]
        rw [hpj, hg1i, hg1ne j hji]
        have h4 := hheap j hj0 hjl
        rw [hpj] at h4
        exact le_trans hk h4
      · simp only [keyAt]
        rw [hg1ne j hji, hg1ne (parent j) hpj]
        exact hheap j hj0 hjl
    · intro hi0 c hcl hpc
      rw [hlen1] at hcl
      have hc0 : 0 < c := by
        simp only [parent] at hpc
        omega
      have hci : c ≠ i := by
        simp only [parent] at hpc
        omega
      have hpii : parent i ≠ i := by
        simp only [parent]
        omega
      simp only [keyAt]
      rw [hg1ne c hci, hg1ne (parent i) hpii]
      exact le_trans (hheap i hi0 hi) (hpc ▸ hheap c hc0 hcl)
  have hnn : ¬ (getE h i).1 < key := not_lt.2 hk
  have heq : heap_decrease_key h i key vx = .ok (siftUp h1 i vx) := by
    rw [heap_decrease_key, if_neg hnn]
  rcases siftUp_spec i h1 vx (by omega) hupre with ⟨L, P, H, V⟩
  refine ⟨heq, P, by rw [L, hlen1], H, ?_⟩
  intro hv hn
  have hv1 : VCorrect h1 vx := by
    intro m hm
    rw [hlen1] at hm
    by_cases hmi : m = i
    · rw [hmi, hg1i]
      exact hv i hi
    · rw [hg1ne m hmi]
      exact hv m hm
  have hn1 : IdsNodup h1 := by
    unfold IdsNodup
    rw [hh1, map_snd_setE_key]
    exact hn
  exact ⟨V hv1 hn1, by
    unfold IdsNodup
    exact (List.Perm.nodup_iff (P.map _)).2 hn1⟩

/-! ### Graph lemmas -/

theorem sum_map_filter_le (l : EdgeList) (p : (String × String) × ℚ → Bool)
    (F : (String × String) × ℚ → ℚ) (hF : ∀ e ∈ l, 0 ≤ F e) :
    ((l.filter p).map F).sum ≤ (l.map F).sum := by
  induction l with
  | nil => simp
  | cons e t ih =>
    have hFe := hF e (List.mem_cons_self e t)
    have iht := ih (fun x hx => hF x (List.mem_cons_of_mem e hx))
    rw [List.filter_cons]
    by_cases hp : p e
    · rw [if_pos hp]
      simp only [List.map_cons, List.sum_cons]
      linarith
    · rw [if_neg hp]
      simp only [List.map_cons, List.sum_cons]
      linarith

theorem strength_eq_sum (g : Graph) (v : String) :
    strength g v =
      (g.edges.map (fun e => if e.1.1 = v ∨ e.1.2 = v then e.2 else 0)).sum :=
  rfl

theorem strength_nonneg (g : Graph) (v : String)
    (hw : ∀ e ∈ g.edges, 0 ≤ e.2) : 0 ≤ strength g v := by
  rw [strength_eq_sum]
  apply List.sum_nonneg
  intro x hx
  rcases List.mem_map.1 hx with ⟨e, he, hex⟩
  rw [← hex]
  by_cases hc : e.1.1 = v ∨ e.1.2 = v
  · rw [if_pos hc]
    exact hw e he
  · rw [if_neg hc]

theorem strength_delV_le (g : Graph) (x v : String)
    (hw : ∀ e ∈ g.edges, 0 ≤ e.2) :
    strength (delV g x) v ≤ strength g v := by
  show ((g.edges.filter (fun e => e.1.1 ≠ x ∧ e.1.2 ≠ x)).map
      (fun e => if e.1.1 = v ∨ e.1.2 = v then e.2 else 0)).sum ≤ _
  apply sum_map_filter_le
  intro e he
  by_cases hc : e.1.1 = v ∨ e.1.2 = v
  · rw [if_pos hc]
    exact hw e he
  · rw [if_neg hc]

theorem WF_delV (g : Graph) (x : String) (hwf : WF g) : WF (delV g x) := by
  obtain ⟨h1, h2, h3, h4, h5⟩ := hwf
  refine ⟨h1.filter _, ?_, ?_, h4.filter _, ?_⟩
  · intro e he
    exact h2 e (List.mem_of_mem_filter he)
  · intro e he
    have hm := List.mem_of_mem_filter he
    have hcond := List.of_mem_filter he
    simp only [decide_eq_true_eq] at hcond
    constructor
    · show e.1.1 ∈ g.verts.filter (fun u => u ≠ x)
      rw [List.mem_filter]
      exact ⟨(h3 e hm).1, by simpa using hcond.1⟩
    · show e.1.2 ∈ g.verts.filter (fun u => u ≠ x)
      rw [List.mem_filter]
      exact ⟨(h3 e hm).2, by simpa using hcond.2⟩
  · intro e he
    exact h5 e (List.mem_of_mem_filter he)

theorem mem_nbrs (g : Graph) (x v : String) :
    v ∈ nbrs g x ↔ v ∈ g.verts ∧ adjacent g x v = true := by
  unfold nbrs
  rw [List.mem_filter]

theorem nbrs_ne (g : Graph) (x v : String) (hwf : WF g) (hv : v ∈ nbrs g x) :
    v ≠ x := by
  rcases (mem_nbrs g x v).1 hv with ⟨_, hadj⟩
  unfold adjacent at hadj
  rcases List.any_eq_true.1 hadj with ⟨e, he, hcond⟩
  simp only [decide_eq_true_eq] at hcond
  intro hevx
  rcases hcond with ⟨hc1, hc2⟩ | ⟨hc1, hc2⟩ <;>
    exact hwf.2.1 e he (by rw [hc1, hc2, hevx])

theorem nbrs_nodup (g : Graph) (x : String) (hwf : WF g) :
    (nbrs g x).Nodup := hwf.1.filter _

theorem nbrs_mem_verts (g : Graph) (x v : String) (hv : v ∈ nbrs g x) :
    v ∈ g.verts := ((mem_nbrs g x v).1 hv).1

/-! ### Helpers for the decomposition's initial heap and index -/

def getS : List String → ℕ → String
  | [], _ => ""
  | a :: _, 0 => a
  | _ :: t, n + 1 => getS t n

theorem getS_mem (l : List String) (i : ℕ) (hi : i < l.length) :
    getS l i ∈ l := by
  induction l generalizing i with
  | nil => simp at hi
  | cons a t ih =>
    cases i with
    | zero => exact List.mem_cons_self a t
    | succ n => exact List.mem_cons_of_mem a (ih n (by simpa using hi))

theorem getE_map_pair (f : String → Elem) (vs : List String) (j : ℕ)
    (hj : j < vs.length) : getE (vs.map f) j = f (getS vs j) := by
  induction vs generalizing j with
  | nil => simp at hj
  | cons a t ih =>
    cases j with
    | zero => rfl
    | succ n => exact ih n (by simpa using hj)

theorem enumFrom_lookup (vs : List String) : ∀ (off j : ℕ), vs.Nodup →
    j < vs.length →
    alookup ((vs.enumFrom off).map (fun e => (e.2, e.1))) (getS vs j) =
      some (off + j) := by
  induction vs with
  | nil =>
    intro off j _ hj
    simp at hj
  | cons a t ih =>
    intro off j hnd hj
    cases j with
    | zero =>
      show alookup ((a, off) :: (t.enumFrom (off + 1)).map (fun e => (e.2, e.1))) a =
        some (off + 0)
      rw [alookup, if_pos rfl]
      congr 1
    | succ n =>
      have hn : n < t.length := by simpa using hj
      have hne : a ≠ getS t n := by
        intro he
        exact (List.nodup_cons.1 hnd).1 (he ▸ getS_mem t n hn)
      show alookup ((a, off) :: (t.enumFrom (off + 1)).map (fun e => (e.2, e.1)))
        (getS t n) = some (off + (n + 1))
      rw [alookup, if_neg (fun e : (a, off).1 = getS t n => hne e)]
      rw [ih (off + 1) n (List.nodup_cons.1 hnd).2 hn]
      congr 1
      omega

theorem map_snd_map_pair (g : Graph) :
    ((g.verts.map (fun v => ((strength g v : ℚ), v))).map (fun e => e.2)) =
      g.verts := by
  rw [List.map_map]
  exact List.map_id'' (fun v => rfl) g.verts

/-! ### The k-core loop invariant -/

theorem mem_setE (p : List Elem) (j : ℕ) (x e : Elem)
    (he : e ∈ setE p j x) : e = x ∨ e ∈ p := by
  induction p generalizing j with
  | nil => simp [setE] at he
  | cons a t ih =>
    cases j with
    | zero =>
      rcases List.mem_cons.1 he with h1 | h1
      · exact Or.inl h1
      · exact Or.inr (List.mem_cons_of_mem a h1)
    | succ n =>
      rcases List.mem_cons.1 he with h1 | h1
      · exact Or.inr (h1 ▸ List.mem_cons_self a t)
      · rcases ih n h1 with h2 | h2
        · exact Or.inl h2
        · exact Or.inr (List.mem_cons_of_mem a h2)

theorem vx_lookup_of_mem (p : List Elem) (vx : VIndex) (hv : VCorrect p vx)
    (v : String) (hm : v ∈ p.map (fun e => e.2)) :
    ∃ j, j < p.length ∧ (getE p j).2 = v ∧ alookup vx v = some j := by
  rcases List.mem_map.1 hm with ⟨e, he, hev⟩
  rcases (mem_iff_getE p e).1 he with ⟨j, hj, hje⟩
  refine ⟨j, hj, by rw [hje, hev], ?_⟩
  rw [← hev, ← hje]
  exact hv j hj

/-- Invariant of the decomposition loop: the heap is well-formed and indexed,
its identities are exactly the working graph's vertices, the working graph is
well-formed, and every key dominates both the identity's current strength and
the last assigned core number `m`. -/
def KInv (m : ℚ) (st : KState) : Prop :=
  IsMinHeap st.p ∧ VCorrect st.p st.vx ∧ IdsNodup st.p ∧
  (st.p.map (fun e => e.2)).Perm st.gc.verts ∧ WF st.gc ∧
  (∀ e ∈ st.p, strength st.gc e.2 ≤ e.1 ∧ m ≤ e.1)

theorem decreaseAll_spec (gc : Graph) (s : ℚ) :
    ∀ (ns : List String) (p : List Elem) (vx : VIndex),
    IsMinHeap p → VCorrect p vx → IdsNodup p →
    (∀ v ∈ ns, v ∈ p.map (fun e => e.2)) →
    (∀ e ∈ p, strength gc e.2 ≤ e.1 ∧ s ≤ e.1) →
    ∃ p2 vx2, decreaseAll gc s ns p vx = .ok (p2, vx2) ∧
      IsMinHeap p2 ∧ VCorrect p2 vx2 ∧ IdsNodup p2 ∧
      (p2.map (fun e => e.2)).Perm (p.map (fun e => e.2)) ∧
      p2.length = p.length ∧
      (∀ e ∈ p2, strength gc e.2 ≤ e.1 ∧ s ≤ e.1) := by
  intro ns
  induction ns with
  | nil =>
    intro p vx hh hv hn _ hb
    exact ⟨p, vx, rfl, hh, hv, hn, List.Perm.refl _, rfl, hb⟩
  | cons v vs ih =>
    intro p vx hh hv hn hsub hb
    rcases vx_lookup_of_mem p vx hv v
      (hsub v (List.mem_cons_self v vs)) with ⟨j, hj, hjv, hlk⟩
    have hbj := hb (getE p j) (getE_mem p j hj)
    have hkey : max s (strength gc v) ≤ (getE p j).1 := by
      rcases hbj with ⟨hb1, hb2⟩
      rw [hjv] at hb1
      exact max_le hb2 hb1
    rcases heap_decrease_key_spec p j (max s (strength gc v)) vx hj hh hkey
      with ⟨heq, hperm, hlen, hheap', hvn⟩
    rcases hvn hv hn with ⟨hv', hn'⟩
    set p' := (siftUp (setE p j (max s (strength gc v), (getE p j).2)) j vx).1
      with hp'def
    set vx' := (siftUp (setE p j (max s (strength gc v), (getE p j).2)) j vx).2
      with hvx'def
    have hids : (p'.map (fun e => e.2)).Perm (p.map (fun e => e.2)) := by
      have h1 := hperm.map (fun e : Elem => e.2)
      rw [map_snd_setE_key] at h1
      exact h1
    have hsub' : ∀ w ∈ vs, w ∈ p'.map (fun e => e.2) := by
      intro w hw
      exact (hids.mem_iff).2 (hsub w (List.mem_cons_of_mem v hw))
    have hb' : ∀ e ∈ p', strength gc e.2 ≤ e.1 ∧ s ≤ e.1 := by
      intro e he
      rcases mem_setE p j _ e ((hperm.mem_iff).1 he) with h1 | h1
      · rw [h1]
        constructor
        · show strength gc (getE p j).2 ≤ max s (strength gc v)
          rw [hjv]
          exact le_max_right _ _
        · exact le_max_left _ _
      · exact hb e h1
    rcases ih p' vx' hheap' hv' hn' hsub' hb' with
      ⟨p2, vx2, heq2, hh2, hv2, hn2, hperm2, hlen2, hb2⟩
    refine ⟨p2, vx2, ?_, hh2, hv2, hn2, hperm2.trans hids, by
      rw [hlen2, hp'def, hlen], hb2⟩
    show decreaseAll gc s (v :: vs) p vx = .ok (p2, vx2)
    simp only [decreaseAll, hlk, heq]
    exact heq2

theorem kstep_spec (st : KState) (m : ℚ) (hinv : KInv m st)
    (hne : st.p.length ≠ 0) :
    ∃ st', kstep st = .ok st' ∧
      st'.g = st.g ∧
      st'.hist = st.hist ++ [getE st.p 0] ∧
      st'.p.length = st.p.length - 1 ∧
      m ≤ (getE st.p 0).1 ∧
      KInv (getE st.p 0).1 st' := by
  obtain ⟨hheap, hvc, hnd, hids, hwf, hbounds⟩ := hinv
  rcases heap_extract_min_spec st.p st.vx hne hheap hvc hnd with
    ⟨heq1, hmin, hperm0, hlen1, hheap1, hvc1, hnd1⟩
  set top := getE st.p 0 with htopdef
  set p1 := (min_heapify (dropLastE (setE st.p 0 (getE st.p (st.p.length - 1)))) 0
    (adel (aset st.vx (getE st.p (st.p.length - 1)).2 0) (getE st.p 0).2)).1
    with hp1def
  set vx1 := (min_heapify (dropLastE (setE st.p 0 (getE st.p (st.p.length - 1)))) 0
    (adel (aset st.vx (getE st.p (st.p.length - 1)).2 0) (getE st.p 0).2)).2
    with hvx1def
  set gc' := delV st.gc top.2 with hgcdef
  set ns := nbrs st.gc top.2 with hnsdef
  have htopmem : top ∈ st.p := getE_mem st.p 0 (by omega)
  have hmtop : m ≤ top.1 := (hbounds top htopmem).2
  have hidscons : (st.p.map (fun e => e.2)).Perm
      (top.2 :: p1.map (fun e => e.2)) := by
    have := hperm0.map (fun e : Elem => e.2)
    simpa using this
  have hndcons : (top.2 :: p1.map (fun e => e.2)).Nodup :=
    (List.Perm.nodup_iff hidscons).1 hnd
  have htopnot : top.2 ∉ p1.map (fun e => e.2) := (List.nodup_cons.1 hndcons).1
  have hwnn : ∀ e ∈ st.gc.edges, 0 ≤ e.2 := hwf.2.2.2.2
  have hmem_p1 : ∀ e ∈ p1, e ∈ st.p := by
    intro e he
    exact (hperm0.mem_iff).2 (List.mem_cons_of_mem top he)
  have hids1 : (p1.map (fun e => e.2)).Perm gc'.verts := by
    have hq : gc'.verts = st.gc.verts.filter (fun u => u ≠ top.2) := rfl
    rw [hq]
    have h1 : (st.gc.verts.filter (fun u => u ≠ top.2)).Perm
        ((st.p.map (fun e => e.2)).filter (fun u => u ≠ top.2)) :=
      (hids.symm).filter _
    have h2 : ((st.p.map (fun e => e.2)).filter (fun u => u ≠ top.2)).Perm
        ((top.2 :: p1.map (fun e => e.2)).filter (fun u => u ≠ top.2)) :=
      hidscons.filter _
    have h3 : (top.2 :: p1.map (fun e => e.2)).filter (fun u => u ≠ top.2) =
        p1.map (fun e => e.2) := by
      rw [List.filter_cons, if_neg (by simp)]
      apply List.filter_eq_self.2
      intro a ha
      simp only [decide_eq_true_eq]
      intro hae
      exact htopnot (hae ▸ ha)
    rw [h3] at h2
    exact (h1.trans h2).symm
  have hb1 : ∀ e ∈ p1, strength gc' e.2 ≤ e.1 ∧ top.1 ≤ e.1 := by
    intro e he
    have hep := hmem_p1 e he
    exact ⟨le_trans (strength_delV_le st.gc top.2 e.2 hwnn)
      (hbounds e hep).1, hmin e hep⟩
  have hsub : ∀ v ∈ ns, v ∈ p1.map (fun e => e.2) := by
    intro v hv
    have hvverts : v ∈ st.gc.verts := nbrs_mem_verts st.gc top.2 v hv
    have hvne : v ≠ top.2 := nbrs_ne st.gc top.2 v hwf hv
    have hvp : v ∈ st.p.map (fun e => e.2) := (hids.mem_iff).2 hvverts
    rcases List.mem_cons.1 ((hidscons.mem_iff).1 hvp) with h1 | h1
    · exact absurd h1 hvne
    · exact h1
  rcases decreaseAll_spec gc' top.1 ns p1 vx1 hheap1 hvc1 hnd1 hsub hb1 with
    ⟨p2, vx2, heq2, hh2, hv2, hn2, hperm2, hlen2, hb2⟩
  refine ⟨⟨st.g, gc', aset st.core top.2 top.1, p2, vx2, st.hist ++ [top]⟩,
    ?_, rfl, rfl, ?_, hmtop, ?_⟩
  · show kstep st = _
    rw [kstep]
    rw [heq1]
    simp only [heq2]
  · show p2.length = st.p.length - 1
    rw [hlen2, hlen1]
  · refine ⟨hh2, hv2, hn2, hperm2.trans hids1, WF_delV st.gc top.2 hwf, hb2⟩

theorem kloop_spec (fuel : ℕ) : ∀ (st : KState) (m : ℚ),
    KInv m st → st.p.length ≤ fuel →
    List.Pairwise (fun a b : Elem => a.1 ≤ b.1) st.hist →
    (∀ x ∈ st.hist, x.1 ≤ m) →
    ∃ st' m', kloop fuel st = .ok st' ∧ st'.p = [] ∧ st'.g = st.g ∧
      KInv m' st' ∧ m ≤ m' ∧
      List.Pairwise (fun a b : Elem => a.1 ≤ b.1) st'.hist ∧
      (∀ x ∈ st'.hist, x.1 ≤ m') := by
  induction fuel with
  | zero =>
    intro st m hinv hlen hpw hbm
    have hp : st.p = [] := List.eq_nil_of_length_eq_zero (by omega)
    exact ⟨st, m, rfl, hp, rfl, hinv, le_refl m, hpw, hbm⟩
  | succ fuel ihn =>
    intro st m hinv hlen hpw hbm
    by_cases hp : st.p.length = 0
    · refine ⟨st, m, ?_, List.eq_nil_of_length_eq_zero hp, rfl, hinv,
        le_refl m, hpw, hbm⟩
      rw [kloop, if_pos hp]
    · rcases kstep_spec st m hinv hp with ⟨st1, heq1, hg1, hh1, hl1, hm1, hinv1⟩
      have hpw1 : List.Pairwise (fun a b : Elem => a.1 ≤ b.1) st1.hist := by
        rw [hh1, List.pairwise_append]
        refine ⟨hpw, List.pairwise_singleton _ _, ?_⟩
        intro x hx y hy
        rw [List.mem_singleton.1 hy]
        exact le_trans (hbm x hx) hm1
      have hbm1 : ∀ x ∈ st1.hist, x.1 ≤ (getE st.p 0).1 := by
        intro x hx
        rw [hh1] at hx
        rcases List.mem_append.1 hx with h1 | h1
        · exact le_trans (hbm x h1) hm1
        · rw [List.mem_singleton.1 h1]
      rcases ihn st1 (getE st.p 0).1 hinv1 (by omega) hpw1 hbm1 with
        ⟨st', m', heq', hp', hg', hinv', hm', hpw', hbm'⟩
      refine ⟨st', m', ?_, hp', by rw [hg', hg1], hinv',
        le_trans hm1 hm', hpw', hbm'⟩
      rw [kloop, if_neg hp, heq1]
      exact heq'

theorem kstep_g (st st' : KState) (heq : kstep st = .ok st') :
    st'.g = st.g := by
  rw [kstep] at heq
  cases he : heap_extract_min st.p st.vx with
  | error e =>
    rw [he] at heq
    exact absurd heq (by simp)
  | ok r =>
    rw [he] at heq
    obtain ⟨top, p1, vx1⟩ := r
    cases hd : decreaseAll (delV st.gc top.2) top.1 (nbrs st.gc top.2) p1 vx1 with
    | error e =>
      simp only [hd] at heq
      exact absurd heq (by simp)
    | ok r2 =>
      obtain ⟨p2, vx2⟩ := r2
      simp only [hd] at heq
      rw [← Except.ok.inj heq]

theorem kloop_g (fuel : ℕ) : ∀ (st st' : KState),
    kloop fuel st = .ok st' → st'.g = st.g := by
  induction fuel with
  | zero =>
    intro st st' heq
    rw [kloop] at heq
    rw [← Except.ok.inj heq]
  | succ fuel ihn =>
    intro st st' heq
    rw [kloop] at heq
    by_cases hp : st.p.length = 0
    · rw [if_pos hp] at heq
      rw [← Except.ok.inj heq]
    · rw [if_neg hp] at heq
      cases hk : kstep st with
      | error e =>
        rw [hk] at heq
        exact absurd heq (by simp)
      | ok st1 =>
        rw [hk] at heq
        rw [ihn st1 st' heq, kstep_g st st1 hk]

theorem k_core_run_spec (g : Graph) (hwf : WF g) :
    ∃ st', k_core_run g = .ok st' ∧ st'.p = [] ∧ st'.g = g ∧
      List.Pairwise (fun a b : Elem => a.1 ≤ b.1) st'.hist := by
  set p0 := g.verts.map (fun v => ((strength g v : ℚ), v)) with hp0def
  set vx0 := g.verts.enum.map (fun e => (e.2, e.1)) with hvx0def
  have hlen0 : p0.length = g.verts.length := by
    rw [hp0def, List.length_map]
  have hnd0 : IdsNodup p0 := by
    unfold IdsNodup
    rw [hp0def, map_snd_map_pair]
    exact hwf.1
  have hvc0 : VCorrect p0 vx0 := by
    intro j hj
    rw [hlen0] at hj
    have hg : getE p0 j = ((strength g (getS g.verts j) : ℚ), getS g.verts j) :=
      getE_map_pair _ g.verts j hj
    rw [hg]
    show alookup ((g.verts.enumFrom 0).map (fun e => (e.2, e.1)))
      (getS g.verts j) = some j
    rw [enumFrom_lookup g.verts 0 j hwf.1 hj]
    congr 1
    omega
  rcases build_min_heap_spec p0 vx0 with ⟨hblen, hbperm, hbheap, hbvc⟩
  have hinv0 : KInv 0 ⟨g, g, g.verts.map (fun v => (v, (0 : ℚ))),
      (build_min_heap p0 vx0).1, (build_min_heap p0 vx0).2, []⟩ := by
    refine ⟨hbheap, hbvc hvc0 hnd0, ?_, ?_, hwf, ?_⟩
    · unfold IdsNodup
      exact (List.Perm.nodup_iff (hbperm.map _)).2 hnd0
    · show ((build_min_heap p0 vx0).1.map (fun e => e.2)).Perm g.verts
      have h1 := hbperm.map (fun e : Elem => e.2)
      rw [hp0def, map_snd_map_pair] at h1
      exact h1
    · intro e he
      have hep0 : e ∈ p0 := (hbperm.mem_iff).1 he
      rw [hp0def] at hep0
      rcases List.mem_map.1 hep0 with ⟨v, hv, hve⟩
      rw [← hve]
      exact ⟨le_refl _, strength_nonneg g v hwf.2.2.2.2⟩
  rcases kloop_spec (build_min_heap p0 vx0).1.length _ 0 hinv0 (le_refl _)
    (List.Pairwise.nil) (by intro x hx; simp at hx) with
    ⟨st', m', heq', hp', hg', hinv', _, hpw', _⟩
  refine ⟨st', ?_, hp', hg', hpw'⟩
  show k_core_run g = .ok st'
  rw [k_core_run]
  exact heq'

/-! ### Order facts for the string comparison -/

theorem charListLt_irrefl (l : List Char) : charListLt l l = false := by
  induction l with
  | nil => rfl
  | cons c t ih =>
    rw [charListLt]
    simp [lt_irrefl, ih]

theorem charListLt_asymm : ∀ (a b : List Char),
    charListLt a b = true → charListLt b a = false
  | [], [], h => by simp [charListLt] at h
  | [], _ :: _, _ => rfl
  | _ :: _, [], h => by simp [charListLt] at h
  | c :: cs, d :: ds, h => by
    rw [charListLt] at h
    rw [charListLt]
    rcases Bool.or_eq_true_iff.1 h with h1 | h1
    · have hcd : c < d := of_decide_eq_true h1
      have h2 : decide (d < c) = false := decide_eq_false (lt_asymm hcd)
      have h3 : decide (d = c) = false :=
        decide_eq_false (fun e => absurd (e ▸ hcd) (lt_irrefl c))
      rw [h2, h3]
      rfl
    · rcases Bool.and_eq_true_iff.1 h1 with ⟨h2, h3⟩
      have hcd : c = d := of_decide_eq_true h2
      subst hcd
      have h4 : decide (c < c) = false := decide_eq_false (lt_irrefl c)
      rw [h4, charListLt_asymm cs ds h3]
      simp

theorem charListLt_trans : ∀ (a b c : List Char),
    charListLt a b = true → charListLt b c = true → charListLt a c = true
  | [], [], _, h1, _ => by simp [charListLt] at h1
  | _ :: _, [], _, h1, _ => by simp [charListLt] at h1
  | [], _ :: _, [], _, h2 => by simp [charListLt] at h2
  | [], _ :: _, _ :: _, _, _ => rfl
  | _ :: _, _ :: _, [], _, h2 => by simp [charListLt] at h2
  | x :: xs, y :: ys, z :: zs, h1, h2 => by
    rw [charListLt] at h1 h2 ⊢
    rcases Bool.or_eq_true_iff.1 h1 with ha | ha <;>
      rcases Bool.or_eq_true_iff.1 h2 with hb | hb
    · have hxy : x < y := of_decide_eq_true ha
      have hyz : y < z := of_decide_eq_true hb
      simp [lt_trans hxy hyz]
    · have hxy : x < y := of_decide_eq_true ha
      have hyz : y = z := of_decide_eq_true (Bool.and_eq_true_iff.1 hb).1
      simp [hyz ▸ hxy]
    · have hxy : x = y := of_decide_eq_true (Bool.and_eq_true_iff.1 ha).1
      have hyz : y < z := of_decide_eq_true hb
      simp [hxy ▸ hyz]
    · rcases Bool.and_eq_true_iff.1 ha with ⟨ha1, ha2⟩
      rcases Bool.and_eq_true_iff.1 hb with ⟨hb1, hb2⟩
      have hxy : x = y := of_decide_eq_true ha1
      have hyz : y = z := of_decide_eq_true hb1
      have := charListLt_trans xs ys zs ha2 hb2
      simp [hxy.trans hyz, this]

theorem charListLt_connex : ∀ (a b : List Char), a ≠ b →
    charListLt a b = true ∨ charListLt b a = true
  | [], [], h => absurd rfl h
  | [], _ :: _, _ => Or.inl rfl
  | _ :: _, [], _ => Or.inr rfl
  | c :: cs, d :: ds, h => by
    rcases lt_trichotomy c d with hcd | hcd | hcd
    · exact Or.inl (by rw [charListLt]; simp [hcd])
    · subst hcd
      have hne : cs ≠ ds := fun e => h (by rw [e])
      rcases charListLt_connex cs ds hne with h1 | h1
      · exact Or.inl (by rw [charListLt]; simp [h1])
      · exact Or.inr (by rw [charListLt]; simp [h1])
    · exact Or.inr (by rw [charListLt]; simp [hcd])

theorem strLt_irrefl (a : String) : strLt a a = false := charListLt_irrefl a.data

theorem strLt_asymm {a b : String} (h : strLt a b = true) : strLt b a = false :=
  charListLt_asymm a.data b.data h

theorem strLt_trans {a b c : String} (h1 : strLt a b = true)
    (h2 : strLt b c = true) : strLt a c = true :=
  charListLt_trans a.data b.data c.data h1 h2

theorem strLt_connex {a b : String} (h : a ≠ b) :
    strLt a b = true ∨ strLt b a = true := by
  cases a with
  | mk la =>
    cases b with
    | mk lb =>
      refine charListLt_connex la lb ?_
      intro he
      exact h (by rw [he])

theorem strLe_of_strLt {a b : String} (h : strLt a b = true) :
    strLe a b = true := by
  unfold strLe
  rw [strLt_asymm h]
  rfl

theorem strLe_total (a b : String) : strLe a b = true ∨ strLe b a = true := by
  by_cases he : a = b
  · subst he
    unfold strLe
    rw [strLt_irrefl]
    exact Or.inl rfl
  · rcases strLt_connex he with h1 | h1
    · exact Or.inl (strLe_of_strLt h1)
    · exact Or.inr (strLe_of_strLt h1)

theorem strLe_of_not {a b : String} (h : ¬ strLe a b = true) :
    strLe b a = true := (strLe_total a b).resolve_left h

theorem strLt_of_strLe_ne {a b : String} (h : strLe a b = true) (hne : a ≠ b) :
    strLt a b = true := by
  rcases strLt_connex hne with h1 | h1
  · exact h1
  · unfold strLe at h
    rw [h1] at h
    simp at h

theorem strLe_trans {a b c : String} (h1 : strLe a b = true)
    (h2 : strLe b c = true) : strLe a c = true := by
  unfold strLe at *
  rw [Bool.not_eq_true'] at h1 h2 ⊢
  cases hca : strLt c a with
  | false => rfl
  | true =>
    exfalso
    by_cases hcb : c = b
    · rw [hcb] at hca
      rw [hca] at h1
      simp at h1
    · rcases strLt_connex hcb with h3 | h3
      · rw [h3] at h2
        simp at h2
      · rw [strLt_trans h3 hca] at h1
        simp at h1

/-! ### Insertion sort facts -/

theorem mem_insS (a x : String) (l : List String) :
    x ∈ insS a l ↔ x = a ∨ x ∈ l := by
  induction l with
  | nil => simp [insS]
  | cons b t ih =>
    rw [insS]
    by_cases hc : strLe a b = true
    · rw [if_pos hc]
      simp [List.mem_cons]
    · rw [if_neg hc]
      simp only [List.mem_cons] at *
      rw [ih]
      tauto

theorem insS_perm (a : String) (l : List String) :
    (insS a l).Perm (a :: l) := by
  induction l with
  | nil => exact List.Perm.refl _
  | cons b t ih =>
    rw [insS]
    by_cases hc : strLe a b = true
    · rw [if_pos hc]
    · rw [if_neg hc]
      exact (ih.cons b).trans (List.Perm.swap _ _ _)

theorem sortS_perm (l : List String) : (sortS l).Perm l := by
  induction l with
  | nil => exact List.Perm.refl _
  | cons a t ih =>
    rw [sortS]
    exact (insS_perm a (sortS t)).trans (ih.cons a)

theorem insS_sorted (a : String) (l : List String)
    (hl : l.Pairwise (fun x y => strLe x y = true)) :
    (insS a l).Pairwise (fun x y => strLe x y = true) := by
  induction l with
  | nil => simp [insS]
  | cons b t ih =>
    rw [insS]
    rcases List.pairwise_cons.1 hl with ⟨hb, ht⟩
    by_cases hc : strLe a b = true
    · rw [if_pos hc]
      refine List.pairwise_cons.2 ⟨?_, hl⟩
      intro x hx
      rcases List.mem_cons.1 hx with h1 | h1
      · rw [h1]
        exact hc
      · exact strLe_trans hc (hb x h1)
    · rw [if_neg hc]
      refine List.pairwise_cons.2 ⟨?_, ih ht⟩
      intro x hx
      rcases (mem_insS a x t).1 hx with h1 | h1
      · rw [h1]
        exact strLe_of_not hc
      · exact hb x h1

theorem sortS_sorted (l : List String) :
    (sortS l).Pairwise (fun x y => strLe x y = true) := by
  induction l with
  | nil => exact List.Pairwise.nil
  | cons a t ih =>
    rw [sortS]
    exact insS_sorted a (sortS t) ih

theorem sortedSet_sorted_strict (ws : List String) :
    (sortedSet ws).Pairwise (fun x y => strLt x y = true) := by
  have h1 : (sortedSet ws).Pairwise (fun x y => strLe x y = true) :=
    sortS_sorted ws.dedup
  have h2 : (sortedSet ws).Nodup :=
    (List.Perm.nodup_iff (sortS_perm ws.dedup)).2 (List.nodup_dedup ws)
  have h3 := List.Pairwise.and h2 h1
  refine h3.imp ?_
  intro a b hab
  exact strLt_of_strLe_ne hab.2 hab.1

theorem sortedSet_mem (ws : List String) (x : String) :
    x ∈ sortedSet ws ↔ x ∈ ws := by
  unfold sortedSet
  rw [(sortS_perm ws.dedup).mem_iff, List.mem_dedup]

/-! ### The greedy selector -/

/-- Marginal gain of adding `w` to `chosen` (line 144 of the source). -/
def gainOf (g : Graph) (core : List (String × ℚ)) (l bq : ℚ)
    (chosen : List String) (w : String) : ℚ :=
  keyword_quality (chosen ++ [w]) g core l - bq

theorem findBest_spec (g : Graph) (core : List (String × ℚ)) (l bq : ℚ)
    (chosen : List String) : ∀ (ws : List String) (mg : ℚ) (bw : Option String),
    (findBest g core l bq chosen ws mg bw = (mg, bw) ∧
      ∀ w ∈ ws, gainOf g core l bq chosen w ≤ mg) ∨
    (∃ pre w post, ws = pre ++ w :: post ∧
      findBest g core l bq chosen ws mg bw =
        (gainOf g core l bq chosen w, some w) ∧
      mg < gainOf g core l bq chosen w ∧
      (∀ u ∈ pre, gainOf g core l bq chosen u < gainOf g core l bq chosen w) ∧
      (∀ u ∈ post, gainOf g core l bq chosen u ≤ gainOf g core l bq chosen w)) := by
  intro ws
  induction ws with
  | nil =>
    intro mg bw
    exact Or.inl ⟨rfl, by intro w hw; simp at hw⟩
  | cons w0 rest ih =>
    intro mg bw
    show (findBest g core l bq chosen (w0 :: rest) mg bw = (mg, bw) ∧ _) ∨ _
    rw [findBest]
    by_cases hc : mg < keyword_quality (chosen ++ [w0]) g core l - bq
    · rw [if_pos hc]
      rcases ih (keyword_quality (chosen ++ [w0]) g core l - bq) (some w0) with
        ⟨hfe, hall⟩ | ⟨pre, w, post, hsplit, hfe, hgt, hpre, hpost⟩
      · refine Or.inr ⟨[], w0, rest, by simp, ?_, hc, by simp, hall⟩
        rw [hfe]
        rfl
      · refine Or.inr ⟨w0 :: pre, w, post, by simp [hsplit], hfe,
          lt_trans hc hgt, ?_, hpost⟩
        intro u hu
        rcases List.mem_cons.1 hu with h1 | h1
        · rw [h1]
          exact hgt
        · exact hpre u h1
    · rw [if_neg hc]
      rcases ih mg bw with
        ⟨hfe, hall⟩ | ⟨pre, w, post, hsplit, hfe, hgt, hpre, hpost⟩
      · refine Or.inl ⟨hfe, ?_⟩
        intro w hw
        rcases List.mem_cons.1 hw with h1 | h1
        · rw [h1]
          exact le_of_not_lt hc
        · exact hall w h1
      · refine Or.inr ⟨w0 :: pre, w, post, by simp [hsplit], hfe,
          hgt, ?_, hpost⟩
        intro u hu
        rcases List.mem_cons.1 hu with h1 | h1
        · rw [h1]
          exact lt_of_le_of_lt (le_of_not_lt hc) hgt
        · exact hpre u h1

theorem findBest_none_iff (g : Graph) (core : List (String × ℚ)) (l bq : ℚ)
    (chosen ws : List String) :
    (findBest g core l bq chosen ws 0 none).2 = none ↔
      ∀ w ∈ ws, gainOf g core l bq chosen w ≤ 0 := by
  rcases findBest_spec g core l bq chosen ws 0 none with
    ⟨hfe, hall⟩ | ⟨pre, w, post, hsplit, hfe, hgt, hpre2, hpost2⟩
  · rw [hfe]
    constructor
    · intro _
      exact hall
    · intro _
      rfl
  · rw [hfe]
    constructor
    · intro h
      simp at h
    · intro hall
      have hwmem : w ∈ ws := by
        rw [hsplit]
        exact List.mem_append_right pre (List.mem_cons_self w post)
      exact absurd hgt (not_lt.2 (hall w hwmem))

theorem optStep_ok_iff (l : ℚ) (st : OptState) :
    (∃ st', optStep l st = .ok st') ↔
      ¬ (findBest st.g st.core l st.bq st.chosen st.cands 0 none).2 = none := by
  unfold optStep
  cases hbw : (findBest st.g st.core l st.bq st.chosen st.cands 0 none).2 with
  | none =>
    simp only [hbw]
    constructor
    · rintro ⟨st', hst⟩
      exact absurd hst (by simp)
    · intro h
      exact absurd trivial h
  | some w =>
    simp only [hbw]
    constructor
    · intro _
      simp
    · intro _
      exact ⟨_, rfl⟩

theorem optStep_spec (l : ℚ) (st st' : OptState)
    (heq : optStep l st = .ok st') :
    ∃ w mg,
      w ∈ st.cands ∧ 0 < mg ∧
      mg = gainOf st.g st.core l st.bq st.chosen w ∧
      st'.g = st.g ∧ st'.core = st.core ∧
      st'.bq = st.bq + mg ∧ st.bq < st'.bq ∧
      st'.chosen = st.chosen ++ [w] ∧
      st'.cands = st.cands.erase w ∧
      (∀ u ∈ st.cands, gainOf st.g st.core l st.bq st.chosen u ≤ mg) ∧
      (st.cands.Pairwise (fun a b => strLt a b = true) →
        ∀ u ∈ st.cands, strLt u w = true →
          gainOf st.g st.core l st.bq st.chosen u < mg) := by
  unfold optStep at heq
  rcases findBest_spec st.g st.core l st.bq st.chosen st.cands 0 none with
    ⟨hfe, _⟩ | ⟨pre, w, post, hsplit, hfe, hgt, hpre, hpost⟩
  · rw [hfe] at heq
    exact absurd heq (by simp)
  · rw [hfe] at heq
    simp only at heq
    have hst' : st' = ⟨st.g, st.core, st.cands.erase w,
        st.chosen ++ [w], st.bq + gainOf st.g st.core l st.bq st.chosen w⟩ :=
      (Except.ok.inj heq).symm
    refine ⟨w, gainOf st.g st.core l st.bq st.chosen w,
      by rw [hsplit]; exact List.mem_append_right _ (List.mem_cons_self w post),
      hgt, rfl, by rw [hst'], by rw [hst'], by rw [hst'], ?_, by rw [hst'],
      by rw [hst'], ?_, ?_⟩
    · rw [hst']
      show st.bq < st.bq + gainOf st.g st.core l st.bq st.chosen w
      linarith
    · intro u hu
      rw [hsplit] at hu
      rcases List.mem_append.1 hu with h1 | h1
      · exact le_of_lt (hpre u h1)
      · rcases List.mem_cons.1 h1 with h2 | h2
        · rw [h2]
        · exact hpost u h2
    · intro hsorted u hu hlt
      rw [hsplit] at hu hsorted
      rcases List.mem_append.1 hu with h1 | h1
      · exact hpre u h1
      · exfalso
        rcases List.mem_cons.1 h1 with h2 | h2
        · rw [h2] at hlt
          rw [strLt_irrefl] at hlt
          simp at hlt
        · have hwu : strLt w u = true := by
            have := (List.pairwise_append.1 hsorted).2.1
            exact (List.pairwise_cons.1 this).1 u h2
          rw [strLt_asymm hwu] at hlt
          simp at hlt

/-- Candidate/chosen bookkeeping invariant of the greedy loop. -/
def OptInv (st : OptState) : Prop :=
  st.cands.Pairwise (fun a b => strLt a b = true) ∧
  st.chosen.Nodup ∧
  (∀ w ∈ st.chosen, w ∉ st.cands)

theorem pairwise_strLt_nodup (l : List String)
    (h : l.Pairwise (fun a b => strLt a b = true)) : l.Nodup := by
  refine h.imp ?_
  intro a b hab
  intro he
  rw [he, strLt_irrefl] at hab
  simp at hab

theorem optStep_inv (l : ℚ) (st st' : OptState)
    (heq : optStep l st = .ok st') (hinv : OptInv st) : OptInv st' := by
  rcases optStep_spec l st st' heq with
    ⟨w, mg, hw, _, _, _, _, _, _, hch, hcd, _, _⟩
  obtain ⟨hpw, hnd, hdisj⟩ := hinv
  have hcnodup : st.cands.Nodup := pairwise_strLt_nodup _ hpw
  have hwnotch : w ∉ st.chosen := fun hmem => hdisj w hmem hw
  refine ⟨?_, ?_, ?_⟩
  · rw [hcd]
    exact hpw.sublist (st.cands.erase_sublist w)
  · rw [hch]
    rw [List.nodup_append]
    refine ⟨hnd, List.nodup_singleton w, ?_⟩
    intro a ha hb
    rw [List.mem_singleton.1 hb] at ha
    exact hwnotch ha
  · intro u hu
    rw [hch] at hu
    rw [hcd]
    rcases List.mem_append.1 hu with h1 | h1
    · intro hmem
      exact hdisj u h1 (List.mem_of_mem_erase hmem)
    · rw [List.mem_singleton.1 h1]
      intro hmem
      exact ((List.Nodup.mem_erase_iff hcnodup).1 hmem).1 rfl

theorem optLoop_ok_spec (l : ℚ) : ∀ (k : ℕ) (st st' : OptState),
    optLoop l k st = .ok st' →
    st'.g = st.g ∧ st'.core = st.core ∧
    st'.chosen.length = st.chosen.length + k ∧
    (OptInv st → OptInv st') := by
  intro k
  induction k with
  | zero =>
    intro st st' heq
    rw [optLoop] at heq
    rw [← Except.ok.inj heq]
    exact ⟨rfl, rfl, rfl, fun h => h⟩
  | succ k ihn =>
    intro st st' heq
    rw [optLoop] at heq
    cases hos : optStep l st with
    | error e =>
      rw [hos] at heq
      exact absurd heq (by simp)
    | ok st1 =>
      rw [hos] at heq
      rcases ihn st1 st' heq with ⟨hg, hcore, hlen, hinv⟩
      rcases optStep_spec l st st1 hos with
        ⟨w, mg, _, _, _, hg1, hcore1, _, _, hch1, _, _, _⟩
      refine ⟨by rw [hg, hg1], by rw [hcore, hcore1], ?_, ?_⟩
      · rw [hlen, hch1]
        simp
        omega
      · intro h0
        exact hinv (optStep_inv l st st1 hos h0)

theorem optLoop_error_iff (l : ℚ) : ∀ (k : ℕ) (st : OptState),
    (∃ e, optLoop l k st = .error e) ↔
    (∃ j st1, j < k ∧ optLoop l j st = .ok st1 ∧
      (findBest st1.g st1.core l st1.bq st1.chosen st1.cands 0 none).2 = none) := by
  intro k
  induction k with
  | zero =>
    intro st
    constructor
    · rintro ⟨e, he⟩
      rw [optLoop] at he
      exact absurd he (by simp)
    · rintro ⟨j, st1, hj, _, _⟩
      omega
  | succ k ihn =>
    intro st
    cases hos : optStep l st with
    | error e =>
      have hnok : ¬ ∃ st', optStep l st = .ok st' := by
        rintro ⟨st', h⟩
        rw [h] at hos
        exact absurd hos (by simp)
      have hnone : (findBest st.g st.core l st.bq st.chosen st.cands 0 none).2 =
          none := by
        by_contra hc
        exact hnok ((optStep_ok_iff l st).2 hc)
      constructor
      · intro _
        exact ⟨0, st, by omega, rfl, hnone⟩
      · intro _
        refine ⟨e, ?_⟩
        rw [optLoop, hos]
    | ok st1 =>
      constructor
      · rintro ⟨e, he⟩
        rw [optLoop, hos] at he
        rcases (ihn st1).1 ⟨e, he⟩ with ⟨j, st2, hj, hloop, hcond⟩
        refine ⟨j + 1, st2, by omega, ?_, hcond⟩
        rw [optLoop, hos]
        exact hloop
      · rintro ⟨j, st2, hj, hloop, hcond⟩
        cases j with
        | zero =>
          rw [optLoop] at hloop
          have hst2 : st2 = st := (Except.ok.inj hloop).symm
          rw [hst2] at hcond
          exact absurd ((optStep_ok_iff l st).1 ⟨st1, hos⟩) (fun h => h hcond)
        | succ j =>
          rw [optLoop, hos] at hloop
          rcases (ihn st1).2 ⟨j, st2, by omega, hloop, hcond⟩ with ⟨e, he⟩
          refine ⟨e, ?_⟩
          rw [optLoop, hos]
          exact he

/-! ### The scorer against the spec's formula -/

/-- Modelled from the spec's wording of `coreRank`: the sum of `core[u]` over
the neighbors `u` of `v` in the original, undecomposed graph. -/
def core_rank_spec (v : String) (g : Graph) (core : List (String × ℚ)) : ℚ :=
  ((nbrs g v).map (fun u => (alookup core u).getD 0)).sum

/-- Modelled from the spec's wording of `quality`: total core-rank minus
`lambda` times `C(|S|, 2) − edgeCount(inducedSubgraph)` when `|S| ≥ 2`. -/
def keyword_quality_spec (keywords : List String) (g : Graph)
    (core : List (String × ℚ)) (l : ℚ) : ℚ :=
  (keywords.map (fun kw => core_rank_spec kw g core)).sum -
    l * (if 2 ≤ keywords.length then
      ((keywords.length.choose 2 : ℚ) - (induced g keywords).edges.length)
    else 0)

theorem comb_eq_choose (n : ℕ) (h : 2 ≤ n) : comb n 2 = n.choose 2 := by
  unfold comb
  rw [Nat.div_div_eq_div_mul]
  exact (Nat.choose_eq_factorial_div_factorial h).symm

theorem induced_verts_length (g : Graph) (S : List String)
    (hg : g.verts.Nodup) (hS : S.Nodup) (hsub : ∀ w ∈ S, w ∈ g.verts) :
    (induced g S).verts.length = S.length := by
  have hperm : (induced g S).verts.Perm S := by
    show (g.verts.filter (fun u => u ∈ S)).Perm S
    rw [List.perm_ext_iff_of_nodup (hg.filter _) hS]
    intro a
    show a ∈ g.verts.filter (fun u => u ∈ S) ↔ a ∈ S
    rw [List.mem_filter]
    constructor
    · intro h1
      simpa using h1.2
    · intro h1
      exact ⟨hsub a h1, by simpa using h1⟩
  exact hperm.length_eq

theorem keyword_quality_eq_spec (S : List String) (g : Graph)
    (core : List (String × ℚ)) (l : ℚ) (hg : g.verts.Nodup) (hS : S.Nodup)
    (hsub : ∀ w ∈ S, w ∈ g.verts) :
    keyword_quality S g core l = keyword_quality_spec S g core l := by
  simp only [keyword_quality, keyword_quality_spec]
  have hlen : (induced g S).verts.length = S.length :=
    induced_verts_length g S hg hS hsub
  rw [hlen]
  have hscore : (S.map (fun kw => core_rank kw g core)).sum =
      (S.map (fun kw => core_rank_spec kw g core)).sum := rfl
  rw [hscore]
  by_cases h2 : 2 ≤ S.length
  · rw [if_pos h2, if_pos h2, comb_eq_choose S.length h2]
  · rw [if_neg h2, if_neg h2]

/-! ### Builder correctness: the edge dictionary counts window co-occurrences -/

/-- Does the key `k` denote the unordered pair `{a, b}` (in either
orientation)? -/
def matchB (a b : String) (k : String × String) : Bool :=
  decide (k = (a, b)) || decide (k = (b, a))

/-- Total weight recorded for the unordered pair `{a, b}`. -/
def ew (es : EdgeList) (a b : String) : ℚ :=
  ((es.filter (fun e => matchB a b e.1)).map (fun e => e.2)).sum

/-- Does the position pair `(p, q)` hold the unordered word pair `{a, b}`? -/
def pairMatch (words : List String) (a b : String) (pq : ℕ × ℕ) : Bool :=
  (decide (getS words pq.1 = a) && decide (getS words pq.2 = b)) ||
    (decide (getS words pq.1 = b) && decide (getS words pq.2 = a))

/-- All position pairs `p < q < len` lying within one window of size `ws`:
the sliding-window co-occurrences of the spec. -/
def windowPairs (len ws : ℕ) : List (ℕ × ℕ) :=
  (List.range len).flatMap (fun q =>
    ((List.range q).filter (fun p => decide (q - p < ws))).map (fun p => (p, q)))

/-- Modelled from the spec: the exact number of sliding-window co-occurrences
of the pair `{a, b}` in the token sequence. -/
def pairCount (words : List String) (ws : ℕ) (a b : String) : ℕ :=
  (windowPairs words.length ws).countP (pairMatch words a b)

/-- Position pairs contributed by the first window (lines 66-77). -/
def firstPairs (ws : ℕ) : List (ℕ × ℕ) :=
  (List.range ws).flatMap (fun i =>
    (List.range' (i + 1) (ws - (i + 1))).map (fun j => (i, j)))

/-- Position pairs contributed by the sliding phase (lines 79-91). -/
def slidePairs (len ws : ℕ) : List (ℕ × ℕ) :=
  (List.range' ws (len - ws)).flatMap (fun i =>
    (List.range (ws - 1)).map (fun j => (i + 1 - ws + j, i)))

/-- Structural invariant of the edge dictionary: no self-loop keys and
distinct unordered-pair keys. -/
def EStruct (es : EdgeList) : Prop :=
  (∀ e ∈ es, e.1.1 ≠ e.1.2) ∧
    es.Pairwise (fun e1 e2 => ¬ sameUPair e1.1 e2.1)

/-- Counting invariant: the recorded weight of every unordered pair equals the
number of processed position pairs holding it. -/
def ECount (words : List String) (es : EdgeList) (L : List (ℕ × ℕ)) : Prop :=
  ∀ a b, a ≠ b → ew es a b = (L.countP (pairMatch words a b) : ℚ)

theorem sameUPair_symm {x y : String × String} (h : sameUPair x y) :
    sameUPair y x := by
  obtain ⟨x1, x2⟩ := x
  obtain ⟨y1, y2⟩ := y
  rcases h with h | h
  · exact Or.inl h.symm
  · rw [Prod.mk.injEq] at h
    exact Or.inr (by rw [Prod.mk.injEq]; exact ⟨h.2.symm, h.1.symm⟩)

theorem matchB_eq_sameUPair (a b : String) (k : String × String) :
    matchB a b k = true ↔ sameUPair (a, b) k := by
  unfold matchB sameUPair
  simp

theorem bumpE_keys (es : EdgeList) (k : String × String) :
    (bumpE es k).map (fun e => e.1) = es.map (fun e => e.1) := by
  induction es with
  | nil => rfl
  | cons e t ih =>
    by_cases he : e.1 = k
    · simp only [bumpE, List.map_cons] at *
      rw [if_pos he]
      simpa [he] using ih
    · simp only [bumpE, List.map_cons] at *
      rw [if_neg he]
      simpa using ih

theorem bumpE_noop (es : EdgeList) (k : String × String)
    (h : ∀ e ∈ es, e.1 ≠ k) : bumpE es k = es := by
  induction es with
  | nil => rfl
  | cons e t ih =>
    simp only [bumpE, List.map_cons]
    rw [if_neg (h e (List.mem_cons_self e t))]
    have := ih (fun x hx => h x (List.mem_cons_of_mem e hx))
    simp only [bumpE] at this
    rw [this]

theorem ew_bumpE_nomatch (es : EdgeList) (k : String × String) (a b : String)
    (h : matchB a b k = false) : ew (bumpE es k) a b = ew es a b := by
  induction es with
  | nil => rfl
  | cons e t ih =>
    show ew ((if e.1 = k then (e.1, e.2 + 1) else e) :: bumpE t k) a b =
      ew (e :: t) a b
    by_cases he : e.1 = k
    · rw [if_pos he]
      have hm2 : matchB a b e.1 = false := by rw [he]; exact h
      show ew ((e.1, e.2 + 1) :: bumpE t k) a b = ew (e :: t) a b
      unfold ew
      simp only [List.filter_cons]
      split
      · next hcond =>
        exact absurd (show matchB a b e.1 = true from hcond)
          (by rw [hm2]; simp)
      · exact ih
    · rw [if_neg he]
      unfold ew
      simp only [List.filter_cons]
      split
      · simp only [List.map_cons, List.sum_cons]
        have h2 := ih
        unfold ew at h2
        rw [h2]
      · exact ih

theorem ew_bumpE_match (es : EdgeList) (k : String × String) (a b : String)
    (hpw : es.Pairwise (fun e1 e2 => ¬ sameUPair e1.1 e2.1))
    (hk : hasKey es k = true) (hm : matchB a b k = true) :
    ew (bumpE es k) a b = ew es a b + 1 := by
  induction es with
  | nil => simp [hasKey] at hk
  | cons e t ih =>
    rcases List.pairwise_cons.1 hpw with ⟨hhead, htail⟩
    show ew ((if e.1 = k then (e.1, e.2 + 1) else e) :: bumpE t k) a b =
      ew (e :: t) a b + 1
    by_cases he : e.1 = k
    · have htne : ∀ x ∈ t, x.1 ≠ k := by
        intro x hx he2
        exact hhead x hx (by
          rw [he2, ← he]
          exact Or.inl rfl)
      have hnoop : bumpE t k = t := bumpE_noop t k htne
      rw [if_pos he, hnoop]
      have hm2 : matchB a b e.1 = true := by rw [he]; exact hm
      show ew ((e.1, e.2 + 1) :: t) a b = ew (e :: t) a b + 1
      unfold ew
      simp only [List.filter_cons]
      split
      · simp only [List.map_cons, List.sum_cons]
        ring
      · next hcond =>
        exact absurd hm2 hcond
    · have hk2 : hasKey t k = true := by
        unfold hasKey at hk
        rcases List.any_eq_true.1 hk with ⟨x, hx, hxk⟩
        rcases List.mem_cons.1 hx with h1 | h1
        · exact absurd (of_decide_eq_true hxk) (h1 ▸ he)
        · exact List.any_eq_true.2 ⟨x, h1, hxk⟩
      rw [if_neg he]
      have hrec := ih htail hk2
      unfold ew at hrec ⊢
      simp only [List.filter_cons]
      split
      · simp only [List.map_cons, List.sum_cons]
        rw [hrec]
        ring
      · rw [hrec]

theorem ew_append_one (es : EdgeList) (v1 v2 : String) (a b : String) :
    ew (es ++ [((v1, v2), 1)]) a b =
      ew es a b + (if matchB a b (v1, v2) then 1 else 0) := by
  unfold ew
  rw [List.filter_append, List.map_append, List.sum_append]
  congr 1
  simp only [List.filter_cons, List.filter_nil]
  split
  · simp
  · simp


theorem hasKey_iff (es : EdgeList) (k : String × String) :
    hasKey es k = true ↔ ∃ e ∈ es, e.1 = k := by
  unfold hasKey
  rw [List.any_eq_true]
  constructor
  · rintro ⟨e, he, hk⟩
    exact ⟨e, he, of_decide_eq_true hk⟩
  · rintro ⟨e, he, hk⟩
    exact ⟨e, he, decide_eq_true hk⟩

theorem matchB_swap (a b v1 v2 : String) :
    matchB a b (v2, v1) = matchB a b (v1, v2) := by
  unfold matchB
  simp only [Prod.mk.injEq]
  by_cases h1 : v2 = a ∧ v1 = b <;> by_cases h2 : v2 = b ∧ v1 = a <;>
    simp [h1, h2] <;> tauto

theorem bump_fst (k : String × String) (x : (String × String) × ℚ) :
    ((if x.1 = k then (x.1, x.2 + 1) else x) : (String × String) × ℚ).1 =
      x.1 := by
  split <;> rfl

theorem EStruct_bumpE (es : EdgeList) (k : String × String)
    (hst : EStruct es) : EStruct (bumpE es k) := by
  obtain ⟨hs1, hs2⟩ := hst
  constructor
  · intro e he
    rcases List.mem_map.1 he with ⟨x, hx, hxe⟩
    rw [← hxe, bump_fst]
    exact hs1 x hx
  · unfold bumpE
    rw [List.pairwise_map]
    refine hs2.imp ?_
    intro x y hxy
    rw [bump_fst, bump_fst]
    exact hxy

theorem EStruct_addPair (es : EdgeList) (v1 v2 : String)
    (hst : EStruct es) : EStruct (addPair es v1 v2) := by
  unfold addPair
  by_cases h0 : v1 = v2
  · rw [if_pos h0]
    exact hst
  · rw [if_neg h0]
    by_cases h1 : hasKey es (v1, v2) = true
    · rw [if_pos h1]
      exact EStruct_bumpE es (v1, v2) hst
    · rw [if_neg h1]
      by_cases h2 : hasKey es (v2, v1) = true
      · rw [if_pos h2]
        exact EStruct_bumpE es (v2, v1) hst
      · rw [if_neg h2]
        obtain ⟨hs1, hs2⟩ := hst
        constructor
        · intro e he
          rcases List.mem_append.1 he with hm | hm
          · exact hs1 e hm
          · rw [List.mem_singleton.1 hm]
            exact h0
        · rw [List.pairwise_append]
          refine ⟨hs2, List.pairwise_singleton _ _, ?_⟩
          intro x hx y hy
          rw [List.mem_singleton.1 hy]
          intro hsame
          rcases hsame with hs | hs
          · exact h1 ((hasKey_iff es (v1, v2)).2 ⟨x, hx, hs.symm⟩)
          · refine h2 ((hasKey_iff es (v2, v1)).2 ⟨x, hx, ?_⟩)
            rw [Prod.mk.injEq] at hs
            have hxk : x.1 = (x.1.1, x.1.2) := rfl
            rw [hxk, ← hs.1, ← hs.2]

theorem ew_addPair (es : EdgeList) (v1 v2 : String) (a b : String)
    (hst : EStruct es) (hne : v1 ≠ v2) :
    ew (addPair es v1 v2) a b =
      ew es a b + (if matchB a b (v1, v2) then 1 else 0) := by
  unfold addPair
  rw [if_neg hne]
  by_cases h1 : hasKey es (v1, v2) = true
  · rw [if_pos h1]
    by_cases hm : matchB a b (v1, v2) = true
    · rw [ew_bumpE_match es (v1, v2) a b hst.2 h1 hm, if_pos hm]
    · rw [ew_bumpE_nomatch es (v1, v2) a b (Bool.not_eq_true _ ▸ hm), if_neg hm]
      ring
  · rw [if_neg h1]
    by_cases h2 : hasKey es (v2, v1) = true
    · rw [if_pos h2]
      by_cases hm : matchB a b (v1, v2) = true
      · rw [ew_bumpE_match es (v2, v1) a b hst.2 h2 (by rw [matchB_swap]; exact hm),
          if_pos hm]
      · rw [ew_bumpE_nomatch es (v2, v1) a b (by
          rw [matchB_swap]
          exact Bool.not_eq_true _ ▸ hm), if_neg hm]
        ring
    · rw [if_neg h2]
      exact ew_append_one es v1 v2 a b

theorem pairMatch_eq_matchB (words : List String) (a b : String) (p q : ℕ) :
    pairMatch words a b (p, q) = matchB a b (getS words p, getS words q) := by
  unfold pairMatch matchB
  simp only [Prod.mk.injEq]
  by_cases h1 : getS words p = a <;> by_cases h2 : getS words q = b <;>
    by_cases h3 : getS words p = b <;> by_cases h4 : getS words q = a <;>
    simp [h1, h2, h3, h4]

theorem addPair_step (words : List String) (es : EdgeList) (L : List (ℕ × ℕ))
    (p q : ℕ) (hst : EStruct es) (hct : ECount words es L) :
    EStruct (addPair es (getS words p) (getS words q)) ∧
    ECount words (addPair es (getS words p) (getS words q)) (L ++ [(p, q)]) := by
  refine ⟨EStruct_addPair _ _ _ hst, ?_⟩
  intro a b hab
  rw [List.countP_append]
  have hsingle : List.countP (pairMatch words a b) [(p, q)] =
      if matchB a b (getS words p, getS words q) then 1 else 0 := by
    rw [List.countP_cons, List.countP_nil, pairMatch_eq_matchB]
    exact Nat.zero_add _
  by_cases hv : getS words p = getS words q
  · unfold addPair
    rw [if_pos hv]
    have hc0 : matchB a b (getS words p, getS words q) = false := by
      unfold matchB
      simp only [Prod.mk.injEq, Bool.or_eq_false_iff, decide_eq_false_iff_not]
      constructor
      · rintro ⟨h1, h2⟩
        exact hab (by rw [← h1, hv, h2])
      · rintro ⟨h1, h2⟩
        exact hab (by rw [← h2, ← hv, h1])
    rw [hsingle, hc0, hct a b hab]
    simp
  · rw [ew_addPair es _ _ a b hst hv, hct a b hab, hsingle]
    split
    · push_cast
      ring
    · push_cast
      ring

theorem getS_eq_get (l : List String) (i : ℕ) (hi : i < l.length) :
    getS l i = l.get ⟨i, hi⟩ := by
  induction l generalizing i with
  | nil => simp at hi
  | cons a t ih =>
    cases i with
    | zero => rfl
    | succ n => exact ih n (by simpa using hi)

theorem getW_ok (win : List String) (i : ℕ) (hi : i < win.length) :
    getW win i = .ok (getS win i) := by
  unfold getW
  rw [List.get?_eq_get hi, getS_eq_get win i hi]

theorem getW_ok_bound (win : List String) (i : ℕ) (r : String)
    (h : getW win i = .ok r) : i < win.length := by
  unfold getW at h
  cases hg : win.get? i with
  | none =>
    rw [hg] at h
    exact absurd h (by simp)
  | some w =>
    exact List.get?_eq_some.1 hg |>.choose

theorem getS_take (l : List String) (n j : ℕ) (hj : j < n) :
    getS (l.take n) j = getS l j := by
  induction l generalizing n j with
  | nil => simp [getS]
  | cons a t ih =>
    cases n with
    | zero => omega
    | succ m =>
      cases j with
      | zero => rfl
      | succ k => exact ih m k (by omega)

theorem getS_drop (l : List String) (k j : ℕ) :
    getS (l.drop k) j = getS l (k + j) := by
  induction l generalizing k with
  | nil => simp [getS]
  | cons a t ih =>
    cases k with
    | zero =>
      rw [List.drop_zero, Nat.zero_add]
    | succ m =>
      have h1 : getS (t.drop m) j = getS t (m + j) := ih m
      have h2 : m + 1 + j = (m + j) + 1 := by omega
      rw [List.drop_succ_cons, h1, h2]
      rfl

theorem getLast?_eq_getS (l : List String) (hl : l ≠ []) :
    l.getLast? = some (getS l (l.length - 1)) := by
  induction l with
  | nil => exact absurd rfl hl
  | cons a t ih =>
    cases t with
    | nil => rfl
    | cons b t2 =>
      rw [List.getLast?_cons_cons, ih (by simp)]
      rfl

/-! ### The two builder loops preserve the counting invariant -/

theorem innerFirst_spec (words win : List String) (i : ℕ)
    (hwin : ∀ x, x < win.length → getS win x = getS words x)
    (hi : i < win.length) :
    ∀ (js : List ℕ) (es : EdgeList) (L : List (ℕ × ℕ)),
    (∀ j ∈ js, j < win.length) → EStruct es → ECount words es L →
    ∃ es', (js.foldlM (fun es' j => do
        let v1 ← getW win i
        let v2 ← getW win j
        pure (addPair es' v1 v2)) es) = .ok es' ∧
      EStruct es' ∧ ECount words es' (L ++ js.map (fun j => (i, j))) := by
  intro js
  induction js with
  | nil =>
    intro es L _ hst hct
    exact ⟨es, rfl, hst, by simpa using hct⟩
  | cons j js' ih =>
    intro es L hjs hst hct
    have hj : j < win.length := hjs j (List.mem_cons_self j js')
    have hstep := addPair_step words es L i j hst hct
    rw [← hwin i hi, ← hwin j hj] at hstep
    rcases ih (addPair es (getS win i) (getS win j)) (L ++ [(i, j)])
      (fun x hx => hjs x (List.mem_cons_of_mem j hx)) hstep.1 hstep.2 with
      ⟨es', heq, hst', hct'⟩
    refine ⟨es', ?_, hst', by
      rw [List.append_assoc] at hct'
      simpa using hct'⟩
    have hhead : (do
        let v1 ← getW win i
        let v2 ← getW win j
        pure (addPair es v1 v2) : Except BuildErr EdgeList) =
        .ok (addPair es (getS win i) (getS win j)) := by
      rw [getW_ok win i hi, getW_ok win j hj]
      rfl
    simp only [List.foldlM_cons]
    rw [hhead]
    exact heq

theorem outerFirst_spec (words win : List String) (ws : ℕ)
    (hwin : ∀ x, x < win.length → getS win x = getS words x)
    (hlen : win.length = ws) :
    ∀ (is : List ℕ) (es : EdgeList) (L : List (ℕ × ℕ)),
    (∀ i ∈ is, i < ws) → EStruct es → ECount words es L →
    ∃ es', (is.foldlM (fun es i =>
        (List.range' (i + 1) (ws - (i + 1))).foldlM (fun es' j => do
          let v1 ← getW win i
          let v2 ← getW win j
          pure (addPair es' v1 v2)) es) es) = .ok es' ∧
      EStruct es' ∧
      ECount words es' (L ++ is.flatMap (fun i =>
        (List.range' (i + 1) (ws - (i + 1))).map (fun j => (i, j)))) := by
  intro is
  induction is with
  | nil =>
    intro es L _ hst hct
    exact ⟨es, rfl, hst, by simpa using hct⟩
  | cons i is' ih =>
    intro es L his hst hct
    have hi : i < win.length := by
      rw [hlen]
      exact his i (List.mem_cons_self i is')
    have hjs : ∀ j ∈ List.range' (i + 1) (ws - (i + 1)), j < win.length := by
      intro j hj
      rw [List.mem_range'] at hj
      rw [hlen]
      omega
    rcases innerFirst_spec words win i hwin hi
      (List.range' (i + 1) (ws - (i + 1))) es L hjs hst hct with
      ⟨es1, heq1, hst1, hct1⟩
    rcases ih es1 (L ++ (List.range' (i + 1) (ws - (i + 1))).map (fun j => (i, j)))
      (fun x hx => his x (List.mem_cons_of_mem i hx)) hst1 hct1 with
      ⟨es', heq', hst', hct'⟩
    refine ⟨es', ?_, hst', by
      rw [List.append_assoc] at hct'
      simpa using hct'⟩
    simp only [List.foldlM_cons]
    rw [heq1]
    exact heq'

theorem firstWindow_spec (words : List String) (ws : ℕ)
    (hws : ws ≤ words.length) :
    ∃ es, firstWindow (words.take ws) ws [] = .ok es ∧
      EStruct es ∧ ECount words es (firstPairs ws) := by
  have hlen : (words.take ws).length = ws := by
    rw [List.length_take]
    omega
  have hwin : ∀ x, x < (words.take ws).length → getS (words.take ws) x =
      getS words x := by
    intro x hx
    rw [hlen] at hx
    exact getS_take words ws x hx
  have hst0 : EStruct [] := ⟨by simp, List.Pairwise.nil⟩
  have hct0 : ECount words [] [] := by
    intro a b _
    simp [ew]
  rcases outerFirst_spec words (words.take ws) ws hwin hlen (List.range ws) [] []
    (fun i hi => List.mem_range.1 hi) hst0 hct0 with ⟨es, heq, hst, hct⟩
  refine ⟨es, heq, hst, by simpa [firstPairs] using hct⟩

theorem innerSlide_spec (words win : List String) (i ws : ℕ)
    (hwin : ∀ x, x < win.length → getS win x = getS words (i + 1 - ws + x))
    (hidx : i + 1 - ws + win.length = i + 1) (hiws : ws ≤ i) :
    ∀ (js : List ℕ) (es : EdgeList) (L : List (ℕ × ℕ)),
    (∀ j ∈ js, j < win.length) → EStruct es → ECount words es L →
    ∃ es', (js.foldlM (fun es' j => do
        let v1 ← getW win j
        pure (addPair es' v1 (getS words i))) es) = .ok es' ∧
      EStruct es' ∧
      ECount words es' (L ++ js.map (fun j => (i + 1 - ws + j, i))) := by
  intro js
  induction js with
  | nil =>
    intro es L _ hst hct
    exact ⟨es, rfl, hst, by simpa using hct⟩
  | cons j js' ih =>
    intro es L hjs hst hct
    have hj : j < win.length := hjs j (List.mem_cons_self j js')
    have hstep := addPair_step words es L (i + 1 - ws + j) i hst hct
    rw [← hwin j hj] at hstep
    rcases ih (addPair es (getS win j) (getS words i)) (L ++ [(i + 1 - ws + j, i)])
      (fun x hx => hjs x (List.mem_cons_of_mem j hx)) hstep.1 hstep.2 with
      ⟨es', heq, hst', hct'⟩
    refine ⟨es', ?_, hst', by
      rw [List.append_assoc] at hct'
      simpa using hct'⟩
    have hhead : (do
        let v1 ← getW win j
        pure (addPair es v1 (getS words i)) : Except BuildErr EdgeList) =
        .ok (addPair es (getS win j) (getS words i)) := by
      rw [getW_ok win j hj]
      rfl
    simp only [List.foldlM_cons]
    rw [hhead]
    exact heq

theorem outerSlide_spec (words : List String) (ws : ℕ) (hws1 : 1 ≤ ws) :
    ∀ (is : List ℕ) (es : EdgeList) (L : List (ℕ × ℕ)),
    (∀ i ∈ is, ws ≤ i ∧ i < words.length) → EStruct es → ECount words es L →
    ∃ es', (is.foldlM (fun es i =>
        match ((words.take (i + 1)).drop (i + 1 - ws)).getLast? with
        | none => (Except.error BuildErr.indexError : Except BuildErr EdgeList)
        | some v2 =>
          (List.range (ws - 1)).foldlM (fun es' j => do
            let v1 ← getW ((words.take (i + 1)).drop (i + 1 - ws)) j
            pure (addPair es' v1 v2)) es) es) = .ok es' ∧
      EStruct es' ∧
      ECount words es' (L ++ is.flatMap (fun i =>
        (List.range (ws - 1)).map (fun j => (i + 1 - ws + j, i)))) := by
  intro is
  induction is with
  | nil =>
    intro es L _ hst hct
    exact ⟨es, rfl, hst, by simpa using hct⟩
  | cons i is' ih =>
    intro es L his hst hct
    have hi := his i (List.mem_cons_self i is')
    have hwl : ((words.take (i + 1)).drop (i + 1 - ws)).length = ws := by
      rw [List.length_drop, List.length_take]
      omega
    have hwin : ∀ x, x < ((words.take (i + 1)).drop (i + 1 - ws)).length →
        getS ((words.take (i + 1)).drop (i + 1 - ws)) x =
          getS words (i + 1 - ws + x) := by
      intro x hx
      rw [hwl] at hx
      rw [getS_drop, getS_take]
      omega
    have hne : ((words.take (i + 1)).drop (i + 1 - ws)) ≠ [] := by
      intro he
      have h0 : (0 : ℕ) = ws := by
        rw [← hwl, he]
        rfl
      omega
    have hlast : ((words.take (i + 1)).drop (i + 1 - ws)).getLast? =
        some (getS words i) := by
      have harg : i + 1 - ws + (ws - 1) = i := by omega
      rw [getLast?_eq_getS _ hne]
      rw [hwl, hwin (ws - 1) (by rw [hwl]; omega), harg]
    have hjs : ∀ j ∈ List.range (ws - 1),
        j < ((words.take (i + 1)).drop (i + 1 - ws)).length := by
      intro j hj
      rw [List.mem_range] at hj
      omega
    rcases innerSlide_spec words ((words.take (i + 1)).drop (i + 1 - ws)) i ws
      hwin (by omega) hi.1 (List.range (ws - 1)) es L hjs hst hct with
      ⟨es1, heq1, hst1, hct1⟩
    rcases ih es1 (L ++ (List.range (ws - 1)).map (fun j => (i + 1 - ws + j, i)))
      (fun x hx => his x (List.mem_cons_of_mem i hx)) hst1 hct1 with
      ⟨es', heq', hst', hct'⟩
    refine ⟨es', ?_, hst', by
      rw [List.append_assoc] at hct'
      simpa using hct'⟩
    simp only [List.foldlM_cons]
    rw [hlast]
    simp only []
    rw [heq1]
    exact heq'

theorem slideWindows_spec (words : List String) (ws : ℕ) (hws1 : 1 ≤ ws)
    (es1 : EdgeList) (L1 : List (ℕ × ℕ)) (hst : EStruct es1)
    (hct : ECount words es1 L1) :
    ∃ es, slideWindows words ws es1 = .ok es ∧ EStruct es ∧
      ECount words es (L1 ++ slidePairs words.length ws) := by
  have hbound : ∀ i ∈ List.range' ws (words.length - ws),
      ws ≤ i ∧ i < words.length := by
    intro i hi
    rw [List.mem_range'] at hi
    omega
  rcases outerSlide_spec words ws hws1 (List.range' ws (words.length - ws))
    es1 L1 hbound hst hct with ⟨es, heq, hst', hct'⟩
  exact ⟨es, heq, hst', by simpa [slidePairs] using hct'⟩

/-! ### Success of the builder forces the window to fit -/

theorem foldlM_cons_ok {α β : Type} (f : β → α → Except BuildErr β) (b : β)
    (x : α) (l : List α) (c : β) (h : (x :: l).foldlM f b = .ok c) :
    ∃ b1, f b x = .ok b1 ∧ l.foldlM f b1 = .ok c := by
  rw [List.foldlM_cons] at h
  cases hf : f b x with
  | error e =>
    rw [hf] at h
    have h2 : (Except.error e : Except BuildErr β) = .ok c := h
    exact absurd h2 (by simp)
  | ok b1 =>
    rw [hf] at h
    exact ⟨b1, rfl, h⟩

theorem innerFirst_bound (win : List String) (i : ℕ) :
    ∀ (js : List ℕ) (es c : EdgeList),
    (js.foldlM (fun es' j => do
        let v1 ← getW win i
        let v2 ← getW win j
        pure (addPair es' v1 v2)) es) = .ok c →
    ∀ j ∈ js, j < win.length := by
  intro js
  induction js with
  | nil =>
    intro es c _ j hj
    simp at hj
  | cons j js' ih =>
    intro es c h x hx
    rcases foldlM_cons_ok _ es j js' c h with ⟨es1, hstep, hrest⟩
    rcases List.mem_cons.1 hx with h1 | h1
    · cases hgi : getW win i with
      | error e =>
        rw [hgi] at hstep
        have h2 : (Except.error e : Except BuildErr EdgeList) = .ok es1 := hstep
        exact absurd h2 (by simp)
      | ok r1 =>
        rw [hgi] at hstep
        cases hgj : getW win j with
        | error e =>
          rw [hgj] at hstep
          have h2 : (Except.error e : Except BuildErr EdgeList) = .ok es1 := hstep
          exact absurd h2 (by simp)
        | ok r2 =>
          rw [h1]
          exact getW_ok_bound win j r2 hgj
    · exact ih es1 c hrest x h1

theorem firstWindow_ok_bound (words : List String) (ws : ℕ) (es0 es : EdgeList)
    (h : firstWindow (words.take ws) ws es0 = .ok es) (h2 : 2 ≤ ws) :
    ws ≤ words.length := by
  obtain ⟨m, rfl⟩ : ∃ m, ws = m + 2 := ⟨ws - 2, by omega⟩
  have hr : List.range (m + 2) = 0 :: List.range' 1 (m + 1) := by
    rw [List.range_eq_range']
    rfl
  unfold firstWindow at h
  rw [hr] at h
  rcases foldlM_cons_ok _ es0 0 (List.range' 1 (m + 1)) es h with ⟨es1, hstep, _⟩
  have hb := innerFirst_bound (words.take (m + 2)) 0
    (List.range' (0 + 1) (m + 2 - (0 + 1))) es0 es1 hstep (m + 1)
    (by
      rw [List.mem_range']
      exact ⟨m, by omega, by omega⟩)
  rw [List.length_take] at hb
  omega

theorem slideWindows_zero_ok (words : List String) (es1 es : EdgeList)
    (h : slideWindows words 0 es1 = .ok es) : words = [] := by
  cases words with
  | nil => rfl
  | cons w t =>
    exfalso
    unfold slideWindows at h
    have hr : List.range' 0 ((w :: t).length - 0) =
        0 :: List.range' 1 t.length := by
      simp
      rfl
    rw [hr] at h
    rcases foldlM_cons_ok _ es1 0 (List.range' 1 t.length) es h with
      ⟨es2, hstep, _⟩
    have hwin : ((w :: t).take (0 + 1)).drop (0 + 1 - 0) = [] := by
      simp
    rw [hwin] at hstep
    have h2 : (Except.error BuildErr.indexError : Except BuildErr EdgeList) =
        .ok es2 := hstep
    exact absurd h2 (by simp)

/-! ### The two window phases together enumerate all window pairs -/

theorem mem_firstPairs (p q ws : ℕ) :
    (p, q) ∈ firstPairs ws ↔ p < q ∧ q < ws := by
  unfold firstPairs
  simp only [List.mem_flatMap, List.mem_range, List.mem_map, List.mem_range'_1,
    Prod.mk.injEq]
  constructor
  · rintro ⟨i, hi, a, ⟨h1, h2⟩, rfl, rfl⟩
    omega
  · rintro ⟨h1, h2⟩
    exact ⟨p, by omega, q, ⟨by omega, by omega⟩, rfl, rfl⟩

theorem mem_slidePairs (p q len ws : ℕ) :
    (p, q) ∈ slidePairs len ws ↔
      ws ≤ q ∧ q < len ∧ q + 1 ≤ p + ws ∧ p < q := by
  unfold slidePairs
  simp only [List.mem_flatMap, List.mem_range'_1, List.mem_range, List.mem_map,
    Prod.mk.injEq]
  constructor
  · rintro ⟨i, ⟨hi1, hi2⟩, j, hj, hp, rfl⟩
    omega
  · rintro ⟨h1, h2, h3, h4⟩
    exact ⟨q, ⟨h1, by omega⟩, p - (q + 1 - ws), by omega, by omega, rfl⟩

theorem mem_windowPairs (p q len ws : ℕ) :
    (p, q) ∈ windowPairs len ws ↔ q < len ∧ p < q ∧ q - p < ws := by
  unfold windowPairs
  simp only [List.mem_flatMap, List.mem_range, List.mem_map, List.mem_filter,
    decide_eq_true_eq, Prod.mk.injEq]
  constructor
  · rintro ⟨b, hb, a, ⟨ha, hlt⟩, rfl, rfl⟩
    omega
  · rintro ⟨h1, h2, h3⟩
    exact ⟨q, h1, p, ⟨by omega, h3⟩, rfl, rfl⟩

theorem nodup_firstPairs (ws : ℕ) : (firstPairs ws).Nodup := by
  unfold firstPairs
  rw [List.nodup_flatMap]
  constructor
  · intro i _
    have hr : (List.range' (i + 1) (ws - (i + 1))).Nodup := by
      apply List.nodup_range'
      all_goals omega
    refine hr.map ?_
    intro a b h
    injection h with h1 h2
  · have hr : (List.range ws).Nodup := List.nodup_range ws
    refine List.Pairwise.imp ?_ hr
    intro i1 i2 hne x hx1 hx2
    simp only [List.mem_map] at hx1 hx2
    obtain ⟨j1, _, rfl⟩ := hx1
    obtain ⟨j2, _, he⟩ := hx2
    injection he with he1 he2
    exact hne he1.symm

theorem nodup_slidePairs (len ws : ℕ) : (slidePairs len ws).Nodup := by
  unfold slidePairs
  rw [List.nodup_flatMap]
  constructor
  · intro i _
    have hr : (List.range (ws - 1)).Nodup := List.nodup_range (ws - 1)
    refine hr.map ?_
    intro a b h
    injection h with h1 h2
    omega
  · have hr : (List.range' ws (len - ws)).Nodup := by
      apply List.nodup_range'
      all_goals omega
    refine List.Pairwise.imp ?_ hr
    intro i1 i2 hne x hx1 hx2
    simp only [List.mem_map] at hx1 hx2
    obtain ⟨j1, _, rfl⟩ := hx1
    obtain ⟨j2, _, he⟩ := hx2
    injection he with he1 he2
    exact hne he2.symm

theorem nodup_windowPairs (len ws : ℕ) : (windowPairs len ws).Nodup := by
  unfold windowPairs
  rw [List.nodup_flatMap]
  constructor
  · intro q _
    have hr : ((List.range q).filter (fun p => decide (q - p < ws))).Nodup :=
      (List.nodup_range q).filter _
    refine hr.map ?_
    intro a b h
    injection h with h1 h2
  · have hr : (List.range len).Nodup := List.nodup_range len
    refine List.Pairwise.imp ?_ hr
    intro q1 q2 hne x hx1 hx2
    simp only [List.mem_map] at hx1 hx2
    obtain ⟨p1, _, rfl⟩ := hx1
    obtain ⟨p2, _, he⟩ := hx2
    injection he with he1 he2
    exact hne he2.symm

theorem windowPairs_perm (len ws : ℕ) (h : ws ≤ len) :
    (firstPairs ws ++ slidePairs len ws).Perm (windowPairs len ws) := by
  refine (List.perm_ext_iff_of_nodup ?_ (nodup_windowPairs len ws)).2 ?_
  · rw [List.nodup_append]
    refine ⟨nodup_firstPairs ws, nodup_slidePairs len ws, ?_⟩
    intro x hx1 hx2
    obtain ⟨p, q⟩ := x
    rw [mem_firstPairs] at hx1
    rw [mem_slidePairs] at hx2
    omega
  · intro x
    obtain ⟨p, q⟩ := x
    rw [List.mem_append, mem_firstPairs, mem_slidePairs, mem_windowPairs]
    omega

/-! ### Each stored weight equals the weight of its own key -/

theorem ew_zero (es : EdgeList) (a b : String)
    (h : ∀ e ∈ es, matchB a b e.1 = false) : ew es a b = 0 := by
  unfold ew
  have hf : es.filter (fun e => matchB a b e.1) = [] := by
    rw [List.filter_eq_nil_iff]
    intro e he
    rw [h e he]
    simp
  rw [hf]
  rfl

theorem ew_self (es : EdgeList) (hs : EStruct es) :
    ∀ e ∈ es, ew es e.1.1 e.1.2 = e.2 := by
  induction es with
  | nil =>
    intro e he
    simp at he
  | cons x t ih =>
    obtain ⟨h1, h2⟩ := hs
    rw [List.pairwise_cons] at h2
    intro e he
    have hnomatch : ∀ y ∈ t, matchB x.1.1 x.1.2 y.1 = false := by
      intro y hy
      by_contra hb
      have hb2 : matchB x.1.1 x.1.2 y.1 = true := by
        cases hx : matchB x.1.1 x.1.2 y.1
        · exact absurd hx hb
        · rfl
      exact h2.1 y hy (matchB_eq_sameUPair x.1.1 x.1.2 y.1 |>.1 hb2)
    rcases List.mem_cons.1 he with rfl | hmem
    · have hx : matchB e.1.1 e.1.2 e.1 = true := by
        unfold matchB
        simp
      unfold ew
      rw [List.filter_cons, if_pos hx, List.map_cons, List.sum_cons]
      have ht : ew t e.1.1 e.1.2 = 0 := ew_zero t e.1.1 e.1.2 hnomatch
      unfold ew at ht
      rw [ht]
      ring
    · have hxm : matchB e.1.1 e.1.2 x.1 = false := by
        by_contra hb
        have hb2 : matchB e.1.1 e.1.2 x.1 = true := by
          cases hx : matchB e.1.1 e.1.2 x.1
          · exact absurd hx hb
          · rfl
        have huv : sameUPair (e.1.1, e.1.2) x.1 :=
          (matchB_eq_sameUPair _ _ _).1 hb2
        exact h2.1 e hmem (sameUPair_symm huv)
      have hres := ih
        ⟨fun e2 he2 => h1 e2 (List.mem_cons_of_mem x he2), h2.2⟩ e hmem
      unfold ew at hres ⊢
      rw [List.filter_cons, if_neg (by rw [hxm]; simp)]
      exact hres

/-! ### Full specification of a successful graph construction -/

theorem build_ok_spec (words : List String) (ws : ℕ) (g : Graph)
    (h : build_graph_of_words words ws = .ok g) :
    g.verts = sortedSet words ∧
    (∀ e ∈ g.edges, e.1.1 ≠ e.1.2) ∧
    g.edges.Pairwise (fun e1 e2 => ¬ sameUPair e1.1 e2.1) ∧
    (∀ e ∈ g.edges, e.2 = (pairCount words ws e.1.1 e.1.2 : ℚ)) ∧
    g.vw = g.verts.map (fun v => strength g v) := by
  unfold build_graph_of_words at h
  cases hfw : firstWindow (words.take ws) ws [] with
  | error e =>
    rw [hfw] at h
    exact absurd h (by simp)
  | ok es1 =>
    simp only [hfw] at h
    cases hsw : slideWindows words ws es1 with
    | error e =>
      simp only [hsw] at h
      exact absurd h (by simp)
    | ok es =>
      simp only [hsw] at h
      have hg : g = { verts := sortedSet words, edges := es,
                      vw := (sortedSet words).map
                        (fun v =>
                          strength
                            { verts := sortedSet words, edges := es, vw := [] }
                            v) } :=
        (Except.ok.inj h).symm
      subst hg
      by_cases h0 : ws = 0
      · subst h0
        have hwnil : words = [] := slideWindows_zero_ok words es1 es hsw
        subst hwnil
        have h1 : (Except.ok [] : Except BuildErr EdgeList) = .ok es1 := hfw
        have hes1 : es1 = [] := (Except.ok.inj h1).symm
        subst hes1
        have h2 : (Except.ok [] : Except BuildErr EdgeList) = .ok es := hsw
        have hes : es = [] := (Except.ok.inj h2).symm
        subst hes
        exact ⟨rfl, by simp, by simp, by simp, rfl⟩
      · by_cases hle : ws ≤ words.length
        · have hws1 : 1 ≤ ws := by omega
          rcases firstWindow_spec words ws hle with ⟨es1', heq1, hst1, hct1⟩
          have hes1 : es1' = es1 := Except.ok.inj (heq1.symm.trans hfw)
          subst hes1
          rcases slideWindows_spec words ws hws1 es1' (firstPairs ws) hst1 hct1
            with ⟨es', heq2, hst2, hct2⟩
          have hes : es' = es := Except.ok.inj (heq2.symm.trans hsw)
          subst hes
          refine ⟨rfl, hst2.1, hst2.2, ?_, rfl⟩
          intro e he
          have hne := hst2.1 e he
          have h1 := ew_self es' hst2 e he
          have h2 := hct2 e.1.1 e.1.2 hne
          have hc : (firstPairs ws ++ slidePairs words.length ws).countP
              (pairMatch words e.1.1 e.1.2) =
              pairCount words ws e.1.1 e.1.2 := by
            unfold pairCount
            exact (windowPairs_perm words.length ws hle).countP_eq _
          rw [← h1, h2, hc]
        · by_cases h1 : ws = 1
          · subst h1
            have hwnil : words = [] := by
              have : words.length = 0 := by omega
              exact List.length_eq_zero.1 this
            subst hwnil
            have h1 : (Except.ok [] : Except BuildErr EdgeList) = .ok es1 := hfw
            have hes1 : es1 = [] := (Except.ok.inj h1).symm
            subst hes1
            have h2 : (Except.ok [] : Except BuildErr EdgeList) = .ok es := hsw
            have hes : es = [] := (Except.ok.inj h2).symm
            subst hes
            exact ⟨rfl, by simp, by simp, by simp, rfl⟩
          · exfalso
            exact hle (firstWindow_ok_bound words ws [] es1 hfw (by omega))

/-! ### Structural mirrors of the sift loops, for concrete evaluation

The two sift loops recurse along a well-founded measure, which blocks kernel
evaluation on concrete inputs; the mirrors below drive the same bodies by
explicit fuel bounded by that measure and are proved equal to the originals. -/

def min_heapifyF : ℕ → List Elem → ℕ → VIndex → List Elem × VIndex
  | 0, h, _, vx => (h, vx)
  | f + 1, h, i, vx =>
    if childMin h i = i then (h, vx)
    else min_heapifyF f (hswap h i (childMin h i)) (childMin h i)
      (vswap (hswap h i (childMin h i)) vx i (childMin h i))

theorem min_heapifyF_eq (f : ℕ) : ∀ (h : List Elem) (i : ℕ) (vx : VIndex),
    h.length - i ≤ f → min_heapifyF f h i vx = min_heapify h i vx := by
  induction f with
  | zero =>
    intro h i vx hle
    have hc : childMin h i = i := childMin_eq_self_of_le h i (by omega)
    rw [min_heapify_eq_self h i vx hc]
    rfl
  | succ f ihn =>
    intro h i vx hle
    by_cases hc : childMin h i = i
    · rw [min_heapifyF, if_pos hc, min_heapify_eq_self h i vx hc]
    · rw [min_heapifyF, if_neg hc, min_heapify_eq_step h i vx hc]
      apply ihn
      have hlt := childMin_lt_of_ne h i hc
      rw [length_hswap]
      omega

def min_heapifyH (h : List Elem) (i : ℕ) (vx : VIndex) : List Elem × VIndex :=
  min_heapifyF h.length h i vx

theorem min_heapifyH_eq (h : List Elem) (i : ℕ) (vx : VIndex) :
    min_heapifyH h i vx = min_heapify h i vx :=
  min_heapifyF_eq h.length h i vx (by omega)

def siftUpF : ℕ → List Elem → ℕ → VIndex → List Elem × VIndex
  | 0, h, _, vx => (h, vx)
  | f + 1, h, i, vx =>
    if 0 < i ∧ (getE h i).1 < (getE h (parent i)).1 then
      siftUpF f (hswap h i (parent i)) (parent i)
        (vswap (hswap h i (parent i)) vx i (parent i))
    else (h, vx)

theorem siftUpF_eq (f : ℕ) : ∀ (h : List Elem) (i : ℕ) (vx : VIndex),
    i < f → siftUpF f h i vx = siftUp h i vx := by
  induction f with
  | zero =>
    intro h i vx hlt
    exact absurd hlt (Nat.not_lt_zero i)
  | succ f ihn =>
    intro h i vx hlt
    by_cases hc : 0 < i ∧ (getE h i).1 < (getE h (parent i)).1
    · rw [siftUpF, if_pos hc, siftUp_eq_step h i vx hc]
      apply ihn
      have hp : parent i < i := by
        simp only [parent]
        omega
      omega
    · rw [siftUpF, if_neg hc, siftUp_eq_stop h i vx hc]

def siftUpH (h : List Elem) (i : ℕ) (vx : VIndex) : List Elem × VIndex :=
  siftUpF (i + 1) h i vx

theorem siftUpH_eq (h : List Elem) (i : ℕ) (vx : VIndex) :
    siftUpH h i vx = siftUp h i vx :=
  siftUpF_eq (i + 1) h i vx (by omega)

def buildFromH : ℕ → List Elem → VIndex → List Elem × VIndex
  | 0, h, vx => min_heapifyH h 0 vx
  | i + 1, h, vx =>
    let r := min_heapifyH h (i + 1) vx
    buildFromH i r.1 r.2

theorem buildFromH_eq : ∀ (i : ℕ) (h : List Elem) (vx : VIndex),
    buildFromH i h vx = buildFrom i h vx := by
  intro i
  induction i with
  | zero =>
    intro h vx
    show min_heapifyH h 0 vx = buildFrom 0 h vx
    rw [min_heapifyH_eq]
    rfl
  | succ i ihn =>
    intro h vx
    show buildFromH i (min_heapifyH h (i + 1) vx).1
      (min_heapifyH h (i + 1) vx).2 = buildFrom (i + 1) h vx
    rw [ihn, min_heapifyH_eq]
    rfl

def build_min_heapH (h : List Elem) (vx : VIndex) : List Elem × VIndex :=
  if h.length < 2 then (h, vx) else buildFromH (h.length / 2 - 1) h vx

theorem build_min_heapH_eq (h : List Elem) (vx : VIndex) :
    build_min_heapH h vx = build_min_heap h vx := by
  unfold build_min_heapH build_min_heap
  by_cases hl : h.length < 2
  · rw [if_pos hl, if_pos hl]
  · rw [if_neg hl, if_neg hl, buildFromH_eq]

def heap_extract_minH (h : List Elem) (vx : VIndex) :
    Except HeapErr (Elem × List Elem × VIndex) :=
  if h.length = 0 then .error .emptyHeap
  else
    let top := getE h 0
    let h1 := setE h 0 (getE h (h.length - 1))
    let vx1 := aset vx (getE h1 0).2 0
    let h2 := dropLastE h1
    let vx2 := adel vx1 top.2
    let r := min_heapifyH h2 0 vx2
    .ok (top, r.1, r.2)

theorem heap_extract_minH_eq (h : List Elem) (vx : VIndex) :
    heap_extract_minH h vx = heap_extract_min h vx := by
  simp only [heap_extract_minH, heap_extract_min, min_heapifyH_eq]

def heap_decrease_keyH (h : List Elem) (i : ℕ) (key : ℚ) (vx : VIndex) :
    Except HeapErr (List Elem × VIndex) :=
  if (getE h i).1 < key then .error .invalidKey
  else .ok (siftUpH (setE h i (key, (getE h i).2)) i vx)

theorem heap_decrease_keyH_eq (h : List Elem) (i : ℕ) (key : ℚ)
    (vx : VIndex) : heap_decrease_keyH h i key vx = heap_decrease_key h i key vx := by
  simp only [heap_decrease_keyH, heap_decrease_key, siftUpH_eq]

def decreaseAllH (gc : Graph) (s : ℚ) :
    List String → List Elem → VIndex → Except HeapErr (List Elem × VIndex)
  | [], p, vx => .ok (p, vx)
  | v :: vs, p, vx =>
    match alookup vx v with
    | none => .error .keyError
    | some i =>
      match heap_decrease_keyH p i (max s (strength gc v)) vx with
      | .error e => .error e
      | .ok (p', vx') => decreaseAllH gc s vs p' vx'

theorem decreaseAllH_eq (gc : Graph) (s : ℚ) : ∀ (ns : List String)
    (p : List Elem) (vx : VIndex),
    decreaseAllH gc s ns p vx = decreaseAll gc s ns p vx := by
  intro ns
  induction ns with
  | nil =>
    intro p vx
    rfl
  | cons v vs ih =>
    intro p vx
    cases hlk : alookup vx v with
    | none => simp only [decreaseAllH, decreaseAll, hlk]
    | some i =>
      simp only [decreaseAllH, decreaseAll, hlk, heap_decrease_keyH_eq]
      cases hdk : heap_decrease_key p i (max s (strength gc v)) vx with
      | error e => simp only [hdk]
      | ok r =>
        obtain ⟨p', vx'⟩ := r
        simp only [hdk]
        exact ih p' vx'

def kstepH (st : KState) : Except HeapErr KState :=
  match heap_extract_minH st.p st.vx with
  | .error e => .error e
  | .ok (top, p1, vx1) =>
    match decreaseAllH (delV st.gc top.2) top.1 (nbrs st.gc top.2) p1 vx1 with
    | .error e => .error e
    | .ok (p2, vx2) =>
      .ok ⟨st.g, delV st.gc top.2, aset st.core top.2 top.1, p2, vx2,
        st.hist ++ [top]⟩

theorem kstepH_eq (st : KState) : kstepH st = kstep st := by
  unfold kstepH kstep
  rw [heap_extract_minH_eq]
  cases hx : heap_extract_min st.p st.vx with
  | error e => simp only [hx]
  | ok r =>
    obtain ⟨top, p1, vx1⟩ := r
    simp only [hx, decreaseAllH_eq]

def kloopH : ℕ → KState → Except HeapErr KState
  | 0, st => .ok st
  | fuel + 1, st =>
    if st.p.length = 0 then .ok st
    else
      match kstepH st with
      | .error e => .error e
      | .ok st' => kloopH fuel st'

theorem kloopH_eq : ∀ (fuel : ℕ) (st : KState),
    kloopH fuel st = kloop fuel st := by
  intro fuel
  induction fuel with
  | zero =>
    intro st
    rfl
  | succ fuel ihn =>
    intro st
    rw [kloopH, kloop]
    by_cases hp : st.p.length = 0
    · rw [if_pos hp, if_pos hp]
    · rw [if_neg hp, if_neg hp, kstepH_eq]
      cases hk : kstep st with
      | error e => simp only [hk]
      | ok st1 =>
        simp only [hk]
        exact ihn st1

def k_core_runH (g : Graph) : Except HeapErr KState :=
  let gc := g
  let core := gc.verts.map (fun v => (v, (0 : ℚ)))
  let p := gc.verts.map (fun v => (strength gc v, v))
  let vx : VIndex := gc.verts.enum.map (fun e => (e.2, e.1))
  let r := build_min_heapH p vx
  kloopH r.1.length ⟨g, gc, core, r.1, r.2, []⟩

theorem k_core_runH_eq (g : Graph) : k_core_runH g = k_core_run g := by
  simp only [k_core_runH, k_core_run, build_min_heapH_eq, kloopH_eq]

def k_core_decompositionH (g : Graph) : Except HeapErr (List (String × ℚ)) :=
  (k_core_runH g).map (fun st => st.core)

theorem k_core_decompositionH_eq (g : Graph) :
    k_core_decompositionH g = k_core_decomposition g := by
  unfold k_core_decompositionH k_core_decomposition
  rw [k_core_runH_eq]

/-! ### Decidability of the data-model predicates -/

def exceptDecEq {ε α : Type} [DecidableEq ε] [DecidableEq α] :
    (a b : Except ε α) → Decidable (a = b)
  | .error a, .error b =>
    if h : a = b then isTrue (by rw [h]) else
      isFalse (fun hc => h (Except.error.inj hc))
  | .error _, .ok _ => isFalse (fun hc => Except.noConfusion hc)
  | .ok _, .error _ => isFalse (fun hc => Except.noConfusion hc)
  | .ok a, .ok b =>
    if h : a = b then isTrue (by rw [h]) else
      isFalse (fun hc => h (Except.ok.inj hc))

instance {ε α : Type} [DecidableEq ε] [DecidableEq α] :
    DecidableEq (Except ε α) :=
  exceptDecEq

instance (a b : String × String) : Decidable (sameUPair a b) := by
  unfold sameUPair
  infer_instance

instance (g : Graph) : Decidable (WF g) := by
  unfold WF
  infer_instance

/-! ### Concrete data for the claim witnesses -/

/-- The graph the builder produces for tokens a b c a b c with window size 3
(also the running example of the spec's concrete scenario). -/
def gAbc : Graph :=
  { verts := ["a", "b", "c"],
    edges := [(("a", "b"), 3), (("a", "c"), 3), (("b", "c"), 3)],
    vw := [6, 6, 6] }

/-- The core mapping the decomposition assigns to `gAbc`. -/
def coreAbc : List (String × ℚ) := [("a", 6), ("b", 6), ("c", 6)]

/-- The greedy selector's initial state on `gAbc`. -/
def stAbc0 : OptState := ⟨gAbc, coreAbc, ["a", "b", "c"], [], 0⟩

/-- The greedy selector's state after its first round on `gAbc`. -/
def stAbc1 : OptState := ⟨gAbc, coreAbc, ["b", "c"], ["a"], 12⟩

/-! ### The claims -/

/-- C1: for every well-formed input graph (in particular, non-negative edge
weights), the decomposition succeeds and the sequence of core numbers it
assigns, taken in the order vertices are extracted from the heap (the `hist`
field logs each extracted `(coreNumber, vertex)` pair in order), is
non-decreasing. -/
theorem C1_core_numbers_monotone (g : Graph) (hwf : WF g) :
    ∃ st', k_core_run g = .ok st' ∧ k_core_decomposition g = .ok st'.core ∧
      List.Pairwise (fun a b : Elem => a.1 ≤ b.1) st'.hist := by
  rcases k_core_run_spec g hwf with ⟨st', heq, _, _, hpw⟩
  refine ⟨st', heq, ?_, hpw⟩
  unfold k_core_decomposition
  rw [heq]
  rfl

/-- Witness for C1 at the concrete graph `gAbc`. -/
theorem C1_core_numbers_monotone_witness :
    ∃ st', k_core_run gAbc = .ok st' ∧
      k_core_decomposition gAbc = .ok st'.core ∧
      List.Pairwise (fun a b : Elem => a.1 ≤ b.1) st'.hist :=
  C1_core_numbers_monotone gAbc (by with_unfolding_all decide)

/-- C2: contrary to the spec's claim that the window is clipped to a shorter
document and the build succeeds over one single window, the builder fails
with the index error for every document shorter than a window of size at
least two: the first-window loop reads `win[j]` for `j` up to
`win_size - 1`, past the end of the clipped window. -/
theorem C2_short_document_fails (words : List String) (ws : ℕ)
    (h2 : 2 ≤ ws) (hlen : words.length < ws) :
    build_graph_of_words words ws = .error .indexError := by
  unfold build_graph_of_words
  cases hfw : firstWindow (words.take ws) ws [] with
  | error e =>
    cases e
    simp only [hfw]
  | ok es1 =>
    exfalso
    have hb := firstWindow_ok_bound words ws [] es1 hfw h2
    omega

/-- Witness for C2 at the one-token document with window size 2. -/
theorem C2_short_document_fails_witness :
    2 ≤ 2 ∧ (["a"] : List String).length < 2 ∧
      build_graph_of_words ["a"] 2 = .error .indexError :=
  ⟨by decide, by decide, C2_short_document_fails ["a"] 2 (by decide) (by decide)⟩

/-- C3: heap correctness.  Building the heap yields a permutation of the
input that satisfies the min-heap invariant with a correct identity→position
index; extract-min on a non-empty valid heap returns the root, which holds a
minimum key among all held elements, and leaves a valid smaller heap;
decrease-key with a key at most the current one succeeds and preserves the
invariants.  In each case the returned index maps every held identity to the
array slot that actually contains it (`VCorrect`). -/
theorem C3_indexed_heap_operations_correct :
    (∀ (h : List Elem) (vx : VIndex), VCorrect h vx → IdsNodup h →
      (build_min_heap h vx).1.Perm h ∧ IsMinHeap (build_min_heap h vx).1 ∧
      VCorrect (build_min_heap h vx).1 (build_min_heap h vx).2 ∧
      IdsNodup (build_min_heap h vx).1) ∧
    (∀ (h : List Elem) (vx : VIndex), h.length ≠ 0 → IsMinHeap h →
      VCorrect h vx → IdsNodup h →
      ∃ p' vx', heap_extract_min h vx = .ok (getE h 0, p', vx') ∧
        (∀ e ∈ h, (getE h 0).1 ≤ e.1) ∧ h.Perm (getE h 0 :: p') ∧
        IsMinHeap p' ∧ VCorrect p' vx' ∧ IdsNodup p') ∧
    (∀ (h : List Elem) (i : ℕ) (key : ℚ) (vx : VIndex), i < h.length →
      IsMinHeap h → VCorrect h vx → IdsNodup h → key ≤ (getE h i).1 →
      ∃ p' vx', heap_decrease_key h i key vx = .ok (p', vx') ∧
        p'.Perm (setE h i (key, (getE h i).2)) ∧ p'.length = h.length ∧
        IsMinHeap p' ∧ VCorrect p' vx' ∧ IdsNodup p') := by
  refine ⟨?_, ?_, ?_⟩
  · intro h vx hv hn
    rcases build_min_heap_spec h vx with ⟨hlen, hperm, hheap, hvc⟩
    refine ⟨hperm, hheap, hvc hv hn, ?_⟩
    unfold IdsNodup
    exact (List.Perm.nodup_iff (hperm.map _)).2 hn
  · intro h vx hne hheap hv hn
    rcases heap_extract_min_spec h vx hne hheap hv hn with
      ⟨heq, hmin, hperm, hlen, hheap2, hvc2, hnd2⟩
    exact ⟨_, _, heq, hmin, hperm, hheap2, hvc2, hnd2⟩
  · intro h i key vx hi hheap hv hn hk
    rcases heap_decrease_key_spec h i key vx hi hheap hk with
      ⟨heq, hperm, hlen, hheap2, hvn⟩
    rcases hvn hv hn with ⟨hvc2, hnd2⟩
    exact ⟨_, _, heq, hperm, hlen, hheap2, hvc2, hnd2⟩

/-- C4: the greedy selection fails with the no-word-selected error exactly
when some round before the `k`-th finds no remaining candidate whose quality
gain over the current best quality is strictly positive; when no round fails
it returns exactly `k` distinct tokens. -/
theorem C4_optimize_failure_and_size (words : List String) (g : Graph)
    (core : List (String × ℚ)) (l : ℚ) (k : ℕ) :
    ((∃ e, optimize words g core l k = .error e) ↔
      (∃ j st1, j < k ∧
        optLoop l j ⟨g, core, sortedSet words, [], 0⟩ = .ok st1 ∧
        ∀ w ∈ st1.cands, gainOf st1.g st1.core l st1.bq st1.chosen w ≤ 0)) ∧
    (∀ res, optimize words g core l k = .ok res →
      res.length = k ∧ res.Nodup) := by
  have hinv0 : OptInv ⟨g, core, sortedSet words, [], 0⟩ :=
    ⟨sortedSet_sorted_strict words, List.nodup_nil, by intro w hw; simp at hw⟩
  constructor
  · have hmap : (∃ e, optimize words g core l k = .error e) ↔
        (∃ e, optRun words g core l k = .error e) := by
      unfold optimize
      cases hr : optRun words g core l k with
      | error e =>
        constructor
        · intro _
          exact ⟨e, rfl⟩
        · intro _
          exact ⟨e, rfl⟩
      | ok st =>
        constructor
        · rintro ⟨e2, he2⟩
          have h2 : (Except.ok st.chosen : Except OptErr (List String)) =
              .error e2 := he2
          exact absurd h2 (by simp)
        · rintro ⟨e2, he2⟩
          exact absurd he2 (by simp)
    rw [hmap]
    show (∃ e, optLoop l k ⟨g, core, sortedSet words, [], 0⟩ = .error e) ↔ _
    rw [optLoop_error_iff]
    constructor
    · rintro ⟨j, st1, hj, hloop, hnone⟩
      exact ⟨j, st1, hj, hloop,
        (findBest_none_iff st1.g st1.core l st1.bq st1.chosen st1.cands).1
          hnone⟩
    · rintro ⟨j, st1, hj, hloop, hall⟩
      exact ⟨j, st1, hj, hloop,
        (findBest_none_iff st1.g st1.core l st1.bq st1.chosen st1.cands).2
          hall⟩
  · intro res hres
    unfold optimize at hres
    cases hr : optRun words g core l k with
    | error e =>
      rw [hr] at hres
      have h2 : (Except.error e : Except OptErr (List String)) = .ok res := hres
      exact absurd h2 (by simp)
    | ok st =>
      rw [hr] at hres
      have hch : st.chosen = res := Except.ok.inj hres
      unfold optRun at hr
      have hspec := optLoop_ok_spec l k ⟨g, core, sortedSet words, [], 0⟩ st hr
      have hinv := hspec.2.2.2 hinv0
      rw [← hch]
      refine ⟨?_, hinv.2.1⟩
      have hl := hspec.2.2.1
      simpa using hl

/-- C5: for every well-formed graph the heap-contract error branches are
unreachable during the decomposition: it never raises the empty-heap,
invalid-key or key-lookup errors, and returns a core mapping. -/
theorem C5_heap_error_branches_unreachable (g : Graph) (hwf : WF g) :
    (∃ core, k_core_decomposition g = .ok core) ∧
    ∀ e, k_core_decomposition g ≠ .error e := by
  rcases k_core_run_spec g hwf with ⟨st', heq, _, _, _⟩
  constructor
  · refine ⟨st'.core, ?_⟩
    unfold k_core_decomposition
    rw [heq]
    rfl
  · intro e he
    unfold k_core_decomposition at he
    rw [heq] at he
    have h2 : (Except.ok st'.core : Except HeapErr (List (String × ℚ))) =
        .error e := he
    exact absurd h2 (by simp)

/-- Witness for C5 at the concrete graph `gAbc`. -/
theorem C5_heap_error_branches_unreachable_witness :
    (∃ core, k_core_decomposition gAbc = .ok core) ∧
    ∀ e, k_core_decomposition gAbc ≠ .error e :=
  C5_heap_error_branches_unreachable gAbc (by with_unfolding_all decide)

/-- C6: every graph the builder returns is simple — no self-loop keys and at
most one edge per unordered pair — every edge weight equals the exact number
of sliding-window co-occurrences of its pair of tokens, and the stored vertex
weights equal each vertex's strength, the sum of its incident edge weights. -/
theorem C6_graph_simple_weights_exact (words : List String) (ws : ℕ)
    (g : Graph) (h : build_graph_of_words words ws = .ok g) :
    (∀ e ∈ g.edges, e.1.1 ≠ e.1.2) ∧
    g.edges.Pairwise (fun e1 e2 => ¬ sameUPair e1.1 e2.1) ∧
    (∀ e ∈ g.edges, e.2 = (pairCount words ws e.1.1 e.1.2 : ℚ)) ∧
    g.vw = g.verts.map (fun v => strength g v) :=
  (build_ok_spec words ws g h).2

/-- Witness for C6 at the spec's concrete scenario. -/
theorem C6_graph_simple_weights_exact_witness :
    (∀ e ∈ gAbc.edges, e.1.1 ≠ e.1.2) ∧
    gAbc.edges.Pairwise (fun e1 e2 => ¬ sameUPair e1.1 e2.1) ∧
    (∀ e ∈ gAbc.edges,
      e.2 = (pairCount ["a", "b", "c", "a", "b", "c"] 3 e.1.1 e.1.2 : ℚ)) ∧
    gAbc.vw = gAbc.verts.map (fun v => strength gAbc v) :=
  C6_graph_simple_weights_exact ["a", "b", "c", "a", "b", "c"] 3 gAbc
    (by with_unfolding_all decide)

/-- C7: the scorer agrees with the spec's formulas: for a duplicate-free
keyword set drawn from the graph's vertices, `keyword_quality` equals the
total core-rank minus `lambda` times `C(|S|, 2)` minus the induced edge
count when `|S| ≥ 2` (zero penalty otherwise), and `core_rank` equals the sum
of `core[u]` over the neighbors `u` in the original, undecomposed graph. -/
theorem C7_scoring_matches_spec_formulas (S : List String) (g : Graph)
    (core : List (String × ℚ)) (l : ℚ) (v : String) (hg : g.verts.Nodup)
    (hS : S.Nodup) (hsub : ∀ w ∈ S, w ∈ g.verts) :
    keyword_quality S g core l = keyword_quality_spec S g core l ∧
    core_rank v g core = core_rank_spec v g core :=
  ⟨keyword_quality_eq_spec S g core l hg hS hsub, rfl⟩

/-- Witness for C7 at the concrete graph `gAbc`. -/
theorem C7_scoring_matches_spec_formulas_witness :
    keyword_quality ["a", "b"] gAbc coreAbc 1 =
      keyword_quality_spec ["a", "b"] gAbc coreAbc 1 ∧
    core_rank "c" gAbc coreAbc = core_rank_spec "c" gAbc coreAbc :=
  C7_scoring_matches_spec_formulas ["a", "b"] gAbc coreAbc 1 "c" (by decide)
    (by decide) (by decide)

/-- C8: in every completed round of the greedy selection the word added to
the chosen set has strictly positive gain, is a gain maximum of the round,
and beats every lexicographically earlier candidate strictly (so it is the
first word in ascending lexicographic order achieving the round's maximum);
consequently the running best quality strictly increases. -/
theorem C8_greedy_round_first_lex_max (words : List String) (g : Graph)
    (core : List (String × ℚ)) (l : ℚ) (j : ℕ) (st st' : OptState)
    (hj : optLoop l j ⟨g, core, sortedSet words, [], 0⟩ = .ok st)
    (hstep : optStep l st = .ok st') :
    ∃ w, w ∈ st.cands ∧ st'.chosen = st.chosen ++ [w] ∧
      0 < gainOf st.g st.core l st.bq st.chosen w ∧
      st.bq < st'.bq ∧
      st'.bq = st.bq + gainOf st.g st.core l st.bq st.chosen w ∧
      (∀ u ∈ st.cands, gainOf st.g st.core l st.bq st.chosen u ≤
        gainOf st.g st.core l st.bq st.chosen w) ∧
      (∀ u ∈ st.cands, strLt u w = true →
        gainOf st.g st.core l st.bq st.chosen u <
          gainOf st.g st.core l st.bq st.chosen w) := by
  have hinv0 : OptInv ⟨g, core, sortedSet words, [], 0⟩ :=
    ⟨sortedSet_sorted_strict words, List.nodup_nil, by intro w hw; simp at hw⟩
  have hinv : OptInv st :=
    (optLoop_ok_spec l j ⟨g, core, sortedSet words, [], 0⟩ st hj).2.2.2 hinv0
  rcases optStep_spec l st st' hstep with
    ⟨w, mg, hw, hpos, hmg, _, _, hbq, hlt, hch, _, hle, hfirst⟩
  refine ⟨w, hw, hch, ?_, hlt, ?_, ?_, ?_⟩
  · rw [← hmg]
    exact hpos
  · rw [hbq, hmg]
  · intro u hu
    rw [← hmg]
    exact hle u hu
  · intro u hu hult
    rw [← hmg]
    exact hfirst hinv.1 u hu hult

/-- Witness for C8: the first round on `gAbc` picks the word a with gain
12. -/
theorem C8_greedy_round_first_lex_max_witness :
    ∃ w, w ∈ stAbc0.cands ∧ stAbc1.chosen = stAbc0.chosen ++ [w] ∧
      0 < gainOf stAbc0.g stAbc0.core 1 stAbc0.bq stAbc0.chosen w ∧
      stAbc0.bq < stAbc1.bq ∧
      stAbc1.bq = stAbc0.bq +
        gainOf stAbc0.g stAbc0.core 1 stAbc0.bq stAbc0.chosen w ∧
      (∀ u ∈ stAbc0.cands,
        gainOf stAbc0.g stAbc0.core 1 stAbc0.bq stAbc0.chosen u ≤
          gainOf stAbc0.g stAbc0.core 1 stAbc0.bq stAbc0.chosen w) ∧
      (∀ u ∈ stAbc0.cands, strLt u w = true →
        gainOf stAbc0.g stAbc0.core 1 stAbc0.bq stAbc0.chosen u <
          gainOf stAbc0.g stAbc0.core 1 stAbc0.bq stAbc0.chosen w) :=
  C8_greedy_round_first_lex_max ["a", "b", "c"] gAbc coreAbc 1 0 stAbc0 stAbc1
    (by with_unfolding_all decide) (by with_unfolding_all decide)

/-- C9 (amended): for tokens a b c a b c with window size 3 the builder
produces exactly the three edges (a,b), (a,c), (b,c) — but each with weight
3, every vertex with strength 6, and the decomposition assigns all three
vertices the equal core number 6 (the spec's figures 2 and 4 are wrong). -/
theorem C9_abcabc_window3_actual_values :
    build_graph_of_words ["a", "b", "c", "a", "b", "c"] 3 = .ok gAbc ∧
    gAbc.edges = [(("a", "b"), 3), (("a", "c"), 3), (("b", "c"), 3)] ∧
    (∀ e ∈ gAbc.edges, e.2 = (3 : ℚ)) ∧
    (∀ v ∈ gAbc.verts, strength gAbc v = 6) ∧
    k_core_decomposition gAbc = .ok coreAbc ∧
    (∀ x ∈ coreAbc, x.2 = (6 : ℚ)) := by
  refine ⟨by with_unfolding_all decide, rfl, by with_unfolding_all decide,
    by with_unfolding_all decide, ?_, by with_unfolding_all decide⟩
  rw [← k_core_decompositionH_eq]
  with_unfolding_all decide

/-- Counterexample to C9 as stated: on the claimed scenario no edge has
weight 2 and no vertex has strength 4. -/
theorem C9_abcabc_window3_spec_values_refuted :
    build_graph_of_words ["a", "b", "c", "a", "b", "c"] 3 = .ok gAbc ∧
    ¬ (∀ e ∈ gAbc.edges, e.2 = (2 : ℚ)) ∧
    ¬ (∀ v ∈ gAbc.verts, strength gAbc v = 4) := by
  with_unfolding_all decide

/-- C10: the decomposition works on a private copy — the caller's graph,
carried unchanged in the state's `g` field, is returned as given — and the
greedy selector returns the graph and core mapping it was given unchanged. -/
theorem C10_inputs_not_mutated :
    (∀ (g : Graph) (st' : KState), k_core_run g = .ok st' → st'.g = g) ∧
    (∀ (words : List String) (g : Graph) (core : List (String × ℚ)) (l : ℚ)
      (k : ℕ) (st' : OptState), optRun words g core l k = .ok st' →
      st'.g = g ∧ st'.core = core) := by
  constructor
  · intro g st' heq
    simp only [k_core_run] at heq
    exact kloop_g _ _ _ heq
  · intro words g core l k st' heq
    unfold optRun at heq
    have hspec := optLoop_ok_spec l k ⟨g, core, sortedSet words, [], 0⟩ st' heq
    exact ⟨hspec.1, hspec.2.1⟩

end CoKE
